import Mathlib

/-!
# Lore wiki: entry / media API and client-side filtering

A shallow embedding of `server.js` (the Express handlers over `lore.json`) and of
`public/script.js` (`getFilteredEntries`), followed by the properties proved about them.

Conventions of the embedding

* JavaScript strings are Lean `String`s (sequences of code points).
* The persisted document `lore.json` is the `List Entry` threaded through the handlers:
  `readLore` returns it, `writeLore` replaces it.  A handler is a function from the
  persisted collection and the request to the response and the new persisted collection.
* `Date.now()` is a parameter `now : Nat` of every handler that reads the clock.
* A `TypeError` thrown inside a handler (for instance `.trim()` on a number) is the
  response `Response.typeError`; nothing is written in that case.
-/

namespace Lore

/-! ## JavaScript string primitives -/

/-- ECMAScript `WhiteSpace` and `LineTerminator` code points: what `String.prototype.trim`
strips and what `\s` matches. -/
def isWhiteSpace (c : Char) : Bool :=
  let n := c.toNat
  n == 0x09 || n == 0x0A || n == 0x0B || n == 0x0C || n == 0x0D || n == 0x20 ||
  n == 0xA0 || n == 0x1680 || (0x2000 ≤ n && n ≤ 0x200A) || n == 0x2028 || n == 0x2029 ||
  n == 0x202F || n == 0x205F || n == 0x3000 || n == 0xFEFF

/-- `s.trim()`: white space removed from both ends. -/
def trim (s : String) : String :=
  ⟨(s.data.dropWhile isWhiteSpace).rdropWhile isWhiteSpace⟩

/-- A string has no white space at either end. -/
def NoOuterWhiteSpace (s : String) : Prop :=
  (∀ c, s.data.head? = some c → isWhiteSpace c = false) ∧
  (∀ c, s.data.getLast? = some c → isWhiteSpace c = false)

/-- A string of ASCII characters only. -/
def IsAscii (s : String) : Prop :=
  ∀ c ∈ s.data, c.toNat < 128

/-- Lower-casing of the ASCII letters `A`-`Z`, character by character; every other
character is kept.  `String.prototype.toLowerCase` itself is not defined here: it is a
parameter of the client functions, and this function says what it returns on ASCII text. -/
def asciiLower (s : String) : String :=
  ⟨s.data.map Char.toLower⟩

/-- Unicode `Cased`, on ASCII and the Greek letters U+0391-U+03A9, U+03B1-U+03C9. -/
def isCased (c : Char) : Bool :=
  let n := c.toNat
  (0x41 ≤ n && n ≤ 0x5A) || (0x61 ≤ n && n ≤ 0x7A) ||
  (0x391 ≤ n && n ≤ 0x3A9 && n != 0x3A2) || (0x3B1 ≤ n && n ≤ 0x3C9)

/-- Unicode `Case_Ignorable`, on ASCII: apostrophe, full stop, colon, circumflex, grave. -/
def isCaseIgnorable (c : Char) : Bool :=
  let n := c.toNat
  n == 0x27 || n == 0x2E || n == 0x3A || n == 0x5E || n == 0x60

/-- The first character that is not case-ignorable is a cased letter. -/
def reachesCased (l : List Char) : Bool :=
  match l.dropWhile isCaseIgnorable with
  | [] => false
  | c :: _ => isCased c

/-- The Unicode lower-case mapping of one character other than capital sigma, on ASCII and
the Greek capital letters. -/
def lowerChar (c : Char) : Char :=
  let n := c.toNat
  if (0x41 ≤ n && n ≤ 0x5A) || (0x391 ≤ n && n ≤ 0x3A9 && n != 0x3A2) then Char.ofNat (n + 32)
  else c

/-- Lower-casing with the Final_Sigma rule: a capital sigma (U+03A3) that follows a cased
letter and is not followed by one becomes the final sigma U+03C2, any other the sigma
U+03C3.  `before` holds the characters already passed, the nearest first. -/
def lowerWithSigma : List Char → List Char → List Char
  | _, [] => []
  | before, c :: rest =>
    (if c.toNat = 0x3A3 then
      if reachesCased before && !reachesCased rest then Char.ofNat 0x3C2 else Char.ofNat 0x3C3
    else lowerChar c) :: lowerWithSigma (c :: before) rest

/-- What `String.prototype.toLowerCase` returns on text made of ASCII characters and the
Greek letters U+0391-U+03A9 and U+03B1-U+03C9 (the Unicode default lower-casing with the
Final_Sigma rule); other characters are kept as they are.  It is the lower-casing used
where a concrete one is needed, on text of that repertoire. -/
def lowerAsciiGreek (s : String) : String :=
  ⟨lowerWithSigma [] s.data⟩

/-- `h` starts with `q`, on character lists. -/
def startsWith : List Char → List Char → Bool
  | _, [] => true
  | [], _ :: _ => false
  | a :: h, b :: q => a == b && startsWith h q

/-- Substring test on character lists. -/
def includesChars : List Char → List Char → Bool
  | [], q => startsWith [] q
  | a :: h, q => startsWith (a :: h) q || includesChars h q

/-- `h.includes(q)`. -/
def includes (h q : String) : Bool :=
  includesChars h.data q.data

/-- `xs.join(sep)` on an array of strings. -/
def join (sep : String) : List String → String
  | [] => ""
  | [x] => x
  | x :: y :: rest => x ++ sep ++ join sep (y :: rest)

/-- Number-to-string conversion of a non-negative integer clock value (decimal digits). -/
def numberToString (n : Nat) : String :=
  Nat.repr n

/-- The number written by a list of decimal digit characters (used to read numerals back). -/
def decimalValue (ds : List Char) : Nat :=
  ds.foldl (fun acc c => 10 * acc + (c.toNat - 48)) 0

/-- The id given to an entry created at clock value `now`: `"id-" + now`. -/
def entryId (now : Nat) : String :=
  "id-" ++ numberToString now

/-! ## JSON values of a request body -/

/-- A value of a parsed JSON request body; `undefined` is an absent property. -/
inductive JVal where
  | undefined
  | null
  | bool (b : Bool)
  | num (n : Int)
  | str (s : String)
  | arr (items : List JVal)
  | obj (fields : List (String × JVal))

namespace JVal

/-- JavaScript truthiness (`ToBoolean`). -/
def truthy : JVal → Bool
  | undefined => false
  | null => false
  | bool b => b
  | num n => n != 0
  | str s => s != ""
  | arr _ => true
  | obj _ => true

/-- `a || b`. -/
def or (a b : JVal) : JVal :=
  if a.truthy then a else b

/-- `a ?? b`. -/
def nullish (a b : JVal) : JVal :=
  match a with
  | undefined => b
  | null => b
  | _ => a

/-- `v.trim()`: defined on strings, a `TypeError` (`none`) on every other JSON value. -/
def callTrim : JVal → Option String
  | str s => some (trim s)
  | _ => none

/-- `Array.isArray(v)`; the handlers branch on it by matching on `arr`. -/
def isArray : JVal → Bool
  | arr _ => true
  | _ => false

/-- The value is a string or the property is absent: what a well-typed request sends for
title, type and body. -/
def isStringOrAbsent : JVal → Bool
  | str _ => true
  | undefined => true
  | _ => false

end JVal

/-- `tags.map(t => t.trim())`: `none` (a `TypeError`) when some element is not a string. -/
def mapTrim : List JVal → Option (List String)
  | [] => some []
  | v :: rest => do
    let t ← v.callTrim
    let ts ← mapTrim rest
    pure (t :: ts)

/-- `tags.map(t => t.trim()).filter(Boolean)`: the empty string is the only falsy string. -/
def trimTags (items : List JVal) : Option (List String) :=
  (mapTrim items).map (fun ts => ts.filter (fun t => t != ""))

/-! ## Data model -/

/-- A media reference as stored in an entry's `media` array: the four fields the attach
handler copies from `req.body`, taken as strings, as `/api/upload` returns them. -/
structure Media where
  filename : String
  url : String
  mimetype : String
  kind : String
deriving DecidableEq, Repr

/-- An entry of `lore.json`.  `media` is optional because the attach handler guards
against entries without it. -/
structure Entry where
  id : String
  title : String
  type : String
  tags : List String
  body : String
  media : Option (List Media)
  updatedAt : Nat
deriving DecidableEq, Repr

/-- The fields the create and update handlers read from `req.body`. -/
structure EntryBody where
  title : JVal
  type : JVal
  tags : JVal
  body : JVal

/-- What a handler answers. -/
inductive Response where
  | json (status : Nat) (entry : Entry)
  | okTrue
  | error (status : Nat) (msg : String)
  | typeError
deriving DecidableEq, Repr

/-- `lore.findIndex(p)`: the first position satisfying `p`, `none` for `-1`. -/
def findIndex {α : Type} (p : α → Bool) : (l : List α) → Option (Fin l.length)
  | [] => none
  | a :: t => if p a then some ⟨0, Nat.succ_pos _⟩ else (findIndex p t).map Fin.succ

/-! ## Entry routes -/

/-- The object literal `newEntry` of `POST /api/lore`. -/
def newEntry (b : EntryBody) (now : Nat) : Option Entry := do
  let title ← (b.title.or (.str "Untitled")).callTrim
  let type ← (b.type.or (.str "")).callTrim
  let tags ← (match b.tags with
    | .arr items => trimTags items
    | _ => some [])
  let body ← (b.body.or (.str "")).callTrim
  pure { id := entryId now, title := title, type := type, tags := tags,
         body := body, media := some [], updatedAt := now }

/-- `POST /api/lore`. -/
def createEntry (lore : List Entry) (b : EntryBody) (now : Nat) : Response × List Entry :=
  match newEntry b now with
  | some e => (.json 201 e, lore ++ [e])
  | none => (.typeError, lore)

/-- The object literal assigned to `lore[i]` by `PUT /api/lore/:id`. -/
def mergedEntry (cur : Entry) (b : EntryBody) (now : Nat) : Option Entry := do
  let title ← (b.title.nullish (.str cur.title)).callTrim
  let type ← (b.type.nullish (.str cur.type)).callTrim
  let tags ← (match b.tags with
    | .arr items => trimTags items
    | _ => some cur.tags)
  let body ← (b.body.nullish (.str cur.body)).callTrim
  pure { cur with title := title, type := type, tags := tags, body := body, updatedAt := now }

/-- `PUT /api/lore/:id`. -/
def updateEntry (lore : List Entry) (id : String) (b : EntryBody) (now : Nat) :
    Response × List Entry :=
  match findIndex (fun e => e.id == id) lore with
  | none => (.error 404 "Not found", lore)
  | some i =>
    match mergedEntry (lore.get i) b now with
    | some e => (.json 200 e, lore.set i e)
    | none => (.typeError, lore)

/-- `DELETE /api/lore/:id`. -/
def deleteEntry (lore : List Entry) (id : String) : Response × List Entry :=
  let kept := lore.filter (fun e => e.id != id)
  if kept.length == lore.length then (.error 404 "Not found", lore)
  else (.okTrue, kept)

/-! ## Media routes -/

/-- `POST /api/lore/:id/media`. -/
def attachMedia (lore : List Entry) (id : String) (m : Media) (now : Nat) :
    Response × List Entry :=
  match findIndex (fun e => e.id == id) lore with
  | none => (.error 404 "Lore entry not found", lore)
  | some i =>
    let cur := lore.get i
    let media := (match cur.media with
      | none => []
      | some ms => ms) ++ [m]
    let e := { cur with media := some media, updatedAt := now }
    (.json 200 e, lore.set i e)

/-- `DELETE /api/lore/:id/media/:filename`. -/
def detachMedia (lore : List Entry) (id filename : String) (now : Nat) :
    Response × List Entry :=
  match findIndex (fun e => e.id == id) lore with
  | none => (.error 404 "Lore entry not found", lore)
  | some i =>
    let cur := lore.get i
    match cur.media with
    | none => (.typeError, lore)
    | some ms =>
      let kept := ms.filter (fun m => m.filename != filename)
      if kept.length == ms.length then (.error 404 "Media not found on entry", lore)
      else
        let e := { cur with media := some kept, updatedAt := now }
        (.json 200 e, lore.set i e)

/-! ## Request traces -/

/-- A request that can change `lore.json`, with the clock value its handler reads. -/
inductive Request where
  | create (b : EntryBody) (now : Nat)
  | update (id : String) (b : EntryBody) (now : Nat)
  | delete (id : String)
  | attach (id : String) (m : Media) (now : Nat)
  | detach (id filename : String) (now : Nat)

/-- The persisted collection after one request. -/
def step (lore : List Entry) : Request → List Entry
  | .create b now => (createEntry lore b now).2
  | .update id b now => (updateEntry lore id b now).2
  | .delete id => (deleteEntry lore id).2
  | .attach id m now => (attachMedia lore id m now).2
  | .detach id filename now => (detachMedia lore id filename now).2

/-- The persisted collection after a sequence of requests. -/
def run (lore : List Entry) (reqs : List Request) : List Entry :=
  reqs.foldl step lore

/-- Collections the API can produce starting from an empty `lore.json`. -/
def Reachable (lore : List Entry) : Prop :=
  ∃ reqs, run [] reqs = lore

/-- What holds of every entry the API stores: trimmed title, type and body, tags that are
non-empty and trimmed, and a `media` array. -/
def WellFormed (e : Entry) : Prop :=
  NoOuterWhiteSpace e.title ∧ NoOuterWhiteSpace e.type ∧ NoOuterWhiteSpace e.body ∧
  (∀ t ∈ e.tags, t ≠ "" ∧ NoOuterWhiteSpace t) ∧ e.media ≠ none

/-- Clock values read by the create requests of a trace, in order. -/
def createClocks : List Request → List Nat
  | [] => []
  | .create _ now :: rest => now :: createClocks rest
  | _ :: rest => createClocks rest

/-! ## Upload file names -/

/-- Loop variables of `path.extname` (see `extname`); `none` stands for `-1`. -/
structure ExtState where
  startDot : Option Nat
  startPart : Nat
  endIdx : Option Nat
  matchedSlash : Bool
  preDotState : Int
deriving DecidableEq, Repr

/-- The scanning loop of `path.extname`, from the last character to the first.  The argument
lists the characters still to visit, the next one first; the index `i` of that character in
the path is the number of characters after it in the list. -/
def extnameLoop : List Char → ExtState → ExtState
  | [], st => st
  | c :: rest, st =>
    let i := rest.length
    if c = '/' then
      if !st.matchedSlash then { st with startPart := i + 1 }
      else extnameLoop rest st
    else
      let st1 := if st.endIdx = none then { st with matchedSlash := false, endIdx := some (i + 1) }
        else st
      let st2 :=
        if c = '.' then
          if st1.startDot = none then { st1 with startDot := some i }
          else if st1.preDotState ≠ 1 then { st1 with preDotState := 1 }
          else st1
        else if st1.startDot ≠ none then { st1 with preDotState := -1 }
        else st1
      extnameLoop rest st2

/-- `path.slice(a, b)` on character lists. -/
def sliceChars (p : List Char) (a b : Nat) : List Char :=
  (p.drop a).take (b - a)

/-- Modelled from the spec: `path.extname` is a function of the Node.js `path` library, which
is not among the sources; the spec calls its result the original extension.  The definition
follows Node's POSIX implementation: the extension of the last path component, from its
last `.` to its end, and the empty string when there is no `.`, when the only `.` is its
first character, or when the component is `..`. -/
def extname (path : String) : String :=
  let st := extnameLoop path.data.reverse
    { startDot := none, startPart := 0, endIdx := none, matchedSlash := true, preDotState := 0 }
  match st.startDot, st.endIdx with
  | some startDot, some endIdx =>
    if st.preDotState = 0 ||
        (st.preDotState = 1 && startDot = endIdx - 1 && startDot = st.startPart + 1) then ""
    else ⟨sliceChars path.data startDot endIdx⟩
  | _, _ => ""

/-- An extension as `path.extname` returns it: empty, or a dot followed by characters none
of which is a dot. -/
def ExtShape (l : List Char) : Prop :=
  l = [] ∨ ∃ r, l = '.' :: r ∧ '.' ∉ r

/-- What the scanning loop of `path.extname` maintains when `k` characters of `p` are still
to be visited: the recorded dot starts a well-shaped slice, and before any dot is recorded
the visited part of the last component has no dot. -/
def ExtInv (p : List Char) (k : Nat) (st : ExtState) : Prop :=
  (∀ d, st.startDot = some d →
    ∃ e, st.endIdx = some e ∧ ∃ r, sliceChars p d e = '.' :: r ∧ '.' ∉ r) ∧
  (st.startDot = none → ∀ e, st.endIdx = some e → k ≤ e ∧ '.' ∉ sliceChars p k e) ∧
  (st.endIdx ≠ none → st.matchedSlash = false)

/-- `.replace(/\s+/g, "_")`: every maximal run of white space becomes one underscore.
The flag tells whether the previous character was white space. -/
def replaceWhiteSpaceRuns : Bool → List Char → List Char
  | _, [] => []
  | inRun, c :: rest =>
    if isWhiteSpace c then
      if inRun then replaceWhiteSpaceRuns true rest else '_' :: replaceWhiteSpaceRuns true rest
    else c :: replaceWhiteSpaceRuns false rest

/-- The character class `[a-zA-Z0-9_\-]`. -/
def isSafeChar (c : Char) : Bool :=
  ('a' ≤ c && c ≤ 'z') || ('A' ≤ c && c ≤ 'Z') || ('0' ≤ c && c ≤ '9') || c == '_' || c == '-'

/-- The two `replace` calls applied to the base name. -/
def sanitizeBase (s : String) : String :=
  ⟨(replaceWhiteSpaceRuns false s.data).filter isSafeChar⟩

/-- The multer `filename` callback: the name under which an upload is stored.
`path.basename`, a Node.js library function of which only the result's sanitised form is
used, is the parameter `basename`; `timestamp` is `Date.now()`. -/
def storageFilename (basename : String → String → String) (originalname : String)
    (timestamp : Nat) : String :=
  let ext := extname originalname
  let base := sanitizeBase (basename originalname ext)
  base ++ "_" ++ numberToString timestamp ++ ext

/-! ## Client-side filtering (`public/script.js`)

`String.prototype.toLowerCase` is the parameter `toLowerCase` of the client functions: it is
the engine's Unicode lower-casing, of which the properties below use only what their
hypotheses say. -/

/-- The text an entry is searched in, before lower-casing.  `e.tags || []` is `e.tags`, an
array being truthy; `e.media || []` is the empty array when `media` is absent. -/
def searchText (e : Entry) : String :=
  join " "
    [e.title, e.type, e.body, join " " e.tags,
     join " " ((match e.media with
       | none => []
       | some ms => ms).map (fun (m : Media) => m.filename))]

/-- The lower-cased text an entry is searched in. -/
def haystack (toLowerCase : String → String) (e : Entry) : String :=
  toLowerCase (searchText e)

/-- `getFilteredEntries()`, with the global `entries` and the values of the search box and
of the type selector as arguments. -/
def getFilteredEntries (toLowerCase : String → String) (entries : List Entry)
    (searchValue typeFilterValue : String) : List Entry :=
  let q := toLowerCase (trim searchValue)
  let tf := toLowerCase (trim typeFilterValue)
  entries.filter (fun e =>
    if tf != "" && toLowerCase e.type != tf then false
    else if q == "" then true
    else includes (haystack toLowerCase e) q)

/-! ## The filtering rule in the words of the specification -/

/-- An entry passes the type filter if the filter value is empty or equals the entry's type
ignoring case. -/
def SpecPassesTypeFilter (toLowerCase : String → String) (e : Entry) (filterValue : String) :
    Prop :=
  filterValue = "" ∨ toLowerCase e.type = toLowerCase filterValue

/-- The lower-cased concatenation, joined by single spaces, of title, type, body, tags and
attached filenames. -/
def specSearchText (toLowerCase : String → String) (e : Entry) : String :=
  toLowerCase (e.title ++ " " ++ e.type ++ " " ++ e.body ++ " " ++ join " " e.tags ++ " " ++
    join " " ((e.media.getD []).map (fun (m : Media) => m.filename)))

/-- One string occurs in another as a substring. -/
def IsSubstring (q h : String) : Prop :=
  ∃ pre post : List Char, h.data = pre ++ q.data ++ post

/-- An entry passes the free-text search if the query is empty or its lower-cased form is a
substring of the entry's search text. -/
def SpecPassesSearch (toLowerCase : String → String) (e : Entry) (query : String) : Prop :=
  query = "" ∨ IsSubstring (toLowerCase query) (specSearchText toLowerCase e)

/-- The body contains the query up to letter case. -/
def BodyContainsIgnoringCase (toLowerCase : String → String) (e : Entry) (query : String) :
    Prop :=
  ∃ pre mid post : List Char, e.body.data = pre ++ mid ++ post ∧
    toLowerCase ⟨mid⟩ = toLowerCase query

/-! ## Lemmas on the string primitives -/

theorem head_dropWhile_false {α : Type} (p : α → Bool) (l : List α) (c : α)
    (h : (l.dropWhile p).head? = some c) : p c = false := by
  induction l with
  | nil => simp at h
  | cons a t ih =>
    by_cases hp : p a = true
    · rw [List.dropWhile_cons_of_pos hp] at h
      exact ih h
    · rw [List.dropWhile_cons_of_neg hp] at h
      simp at h
      subst h
      simpa using hp

theorem getLast_rdropWhile_false {α : Type} (p : α → Bool) (l : List α) (c : α)
    (h : (l.rdropWhile p).getLast? = some c) : p c = false := by
  have hne : l.rdropWhile p ≠ [] := by
    intro h0
    rw [h0] at h
    simp at h
  have := List.rdropWhile_last_not p l hne
  rw [List.getLast?_eq_getLast _ hne] at h
  simp at h
  subst h
  simpa using this

theorem head_rdropWhile {α : Type} (p : α → Bool) (l : List α) (c : α)
    (h : (l.rdropWhile p).head? = some c) : l.head? = some c := by
  obtain ⟨r, hr⟩ := List.rdropWhile_prefix p (l := l)
  cases hd : l.rdropWhile p with
  | nil => rw [hd] at h; simp at h
  | cons a t =>
    rw [hd] at h hr
    rw [← hr]
    simpa using h

theorem trim_noOuterWhiteSpace (s : String) : NoOuterWhiteSpace (trim s) := by
  constructor
  · intro c hc
    exact head_dropWhile_false isWhiteSpace s.data c (head_rdropWhile _ _ c hc)
  · intro c hc
    exact getLast_rdropWhile_false isWhiteSpace _ c hc

theorem dropWhile_eq_self_of_head {α : Type} (p : α → Bool) (l : List α)
    (h : ∀ c, l.head? = some c → p c = false) : l.dropWhile p = l := by
  cases l with
  | nil => rfl
  | cons a t =>
    have := h a rfl
    simp [List.dropWhile_cons, this]

theorem rdropWhile_eq_self_of_getLast {α : Type} (p : α → Bool) (l : List α)
    (h : ∀ c, l.getLast? = some c → p c = false) : l.rdropWhile p = l := by
  rw [List.rdropWhile_eq_self_iff]
  intro hl
  have := h (l.getLast hl) (List.getLast?_eq_getLast _ hl)
  simp [this]

theorem trim_eq_self {s : String} (h : NoOuterWhiteSpace s) : trim s = s := by
  unfold trim
  rw [dropWhile_eq_self_of_head _ _ h.1, rdropWhile_eq_self_of_getLast _ _ h.2]

theorem trim_trim (s : String) : trim (trim s) = trim s :=
  trim_eq_self (trim_noOuterWhiteSpace s)

/-! ## Lemmas on `findIndex` -/

theorem findIndex_eq_none_iff {α : Type} (p : α → Bool) (l : List α) :
    findIndex p l = none ↔ ∀ a ∈ l, p a = false := by
  induction l with
  | nil => simp [findIndex]
  | cons a t ih =>
    by_cases hp : p a = true
    · simp [findIndex, hp]
    · simp [findIndex, hp, ih]

theorem findIndex_some_spec {α : Type} (p : α → Bool) (l : List α) (i : Fin l.length)
    (h : findIndex p l = some i) :
    p (l.get i) = true ∧ ∀ j : Fin l.length, j.val < i.val → p (l.get j) = false := by
  induction l with
  | nil => exact i.elim0
  | cons a t ih =>
    by_cases hp : p a = true
    · simp [findIndex, hp] at h
      subst h
      refine ⟨by simpa using hp, ?_⟩
      intro j hj
      simp at hj
    · simp [findIndex, hp] at h
      obtain ⟨k, hk, rfl⟩ := h
      obtain ⟨h1, h2⟩ := ih k hk
      refine ⟨by simpa using h1, ?_⟩
      intro j hj
      rcases j with ⟨j, hjlt⟩
      cases j with
      | zero => simpa using hp
      | succ j =>
        have := h2 ⟨j, by simpa using hjlt⟩ (by simpa using hj)
        simpa using this

/-! ## Lemmas on decimal numerals -/

theorem decimalValue_append (xs : List Char) (c : Char) :
    decimalValue (xs ++ [c]) = 10 * decimalValue xs + (c.toNat - 48) := by
  simp [decimalValue, List.foldl_append]

theorem digitChar_value (k : Nat) (hk : k < 10) : (Nat.digitChar k).toNat - 48 = k := by
  interval_cases k <;> rfl

theorem digitChar_isDigit (k : Nat) (hk : k < 10) : (Nat.digitChar k).isDigit = true := by
  interval_cases k <;> rfl

theorem toDigitsCore_append (fuel : Nat) : ∀ (n : Nat) (ds : List Char),
    Nat.toDigitsCore 10 fuel n ds = Nat.toDigitsCore 10 fuel n [] ++ ds := by
  induction fuel with
  | zero => intro n ds; simp [Nat.toDigitsCore]
  | succ f ih =>
    intro n ds
    simp only [Nat.toDigitsCore]
    split
    · simp
    · rw [ih (n / 10) (Nat.digitChar (n % 10) :: ds), ih (n / 10) [Nat.digitChar (n % 10)]]
      simp

theorem decimalValue_toDigitsCore (fuel : Nat) : ∀ n, n < fuel →
    decimalValue (Nat.toDigitsCore 10 fuel n []) = n := by
  induction fuel with
  | zero => intro n h; omega
  | succ f ih =>
    intro n h
    simp only [Nat.toDigitsCore]
    split
    · rename_i h0
      have hlt : n < 10 := by omega
      have : n % 10 = n := Nat.mod_eq_of_lt hlt
      rw [this]
      simp [decimalValue, digitChar_value n hlt]
    · rename_i h0
      rw [toDigitsCore_append, decimalValue_append, ih (n / 10) (by omega),
        digitChar_value _ (Nat.mod_lt _ (by decide))]
      omega

theorem toDigitsCore_isDigit (fuel : Nat) : ∀ (n : Nat) (ds : List Char),
    (∀ c ∈ ds, c.isDigit = true) → ∀ c ∈ Nat.toDigitsCore 10 fuel n ds, c.isDigit = true := by
  induction fuel with
  | zero => intro n ds h; simpa [Nat.toDigitsCore] using h
  | succ f ih =>
    intro n ds h
    have hd : ∀ c ∈ Nat.digitChar (n % 10) :: ds, c.isDigit = true := by
      intro c hc
      rcases List.mem_cons.1 hc with rfl | hc
      · exact digitChar_isDigit _ (Nat.mod_lt _ (by decide))
      · exact h c hc
    simp only [Nat.toDigitsCore]
    split
    · exact hd
    · exact ih _ _ hd

theorem numberToString_data (n : Nat) : (numberToString n).data = Nat.toDigits 10 n := rfl

theorem numberToString_isDigit (n : Nat) : ∀ c ∈ (numberToString n).data, c.isDigit = true := by
  rw [numberToString_data]
  exact toDigitsCore_isDigit _ _ _ (by simp)

theorem numberToString_injective {a b : Nat} (h : numberToString a = numberToString b) :
    a = b := by
  have h1 : decimalValue (numberToString a).data = a := by
    rw [numberToString_data]
    exact decimalValue_toDigitsCore _ _ (Nat.lt_succ_self a)
  have h2 : decimalValue (numberToString b).data = b := by
    rw [numberToString_data]
    exact decimalValue_toDigitsCore _ _ (Nat.lt_succ_self b)
  rw [← h1, ← h2, h]

theorem entryId_injective {a b : Nat} (h : entryId a = entryId b) : a = b := by
  apply numberToString_injective
  have := congrArg String.data h
  simp only [entryId, String.data_append, List.append_cancel_left_eq] at this
  exact String.ext this

/-! ## The handlers at the first entry carrying the requested id -/

theorem findIndex_first {α : Type} (p : α → Bool) (pre : List α) (e : α) (post : List α)
    (hpre : ∀ x ∈ pre, p x = false) (he : p e = true) :
    ∃ i, findIndex p (pre ++ e :: post) = some i ∧ (pre ++ e :: post).get i = e ∧
      ∀ e2, (pre ++ e :: post).set i e2 = pre ++ e2 :: post := by
  induction pre with
  | nil => exact ⟨⟨0, by simp⟩, by simp [findIndex, he], rfl, fun _ => rfl⟩
  | cons a t ih =>
    have ha : p a = false := hpre a (List.mem_cons_self _ _)
    obtain ⟨i, hi, hget, hset⟩ := ih (fun x hx => hpre x (List.mem_cons_of_mem _ hx))
    refine ⟨i.succ, ?_, ?_, ?_⟩
    · simp [findIndex, ha, hi]
    · simpa using hget
    · intro e2
      have := hset e2
      simpa using this

theorem first_match_split {α : Type} (p : α → Bool) (l : List α) (h : ∃ a ∈ l, p a = true) :
    ∃ pre e post, l = pre ++ e :: post ∧ (∀ x ∈ pre, p x = false) ∧ p e = true := by
  induction l with
  | nil => simp at h
  | cons a t ih =>
    by_cases ha : p a = true
    · exact ⟨[], a, t, rfl, by simp, ha⟩
    · have : ∃ b ∈ t, p b = true := by
        obtain ⟨b, hb, hpb⟩ := h
        rcases List.mem_cons.1 hb with rfl | hb
        · exact absurd hpb ha
        · exact ⟨b, hb, hpb⟩
      obtain ⟨pre, e, post, rfl, hpre, he⟩ := ih this
      refine ⟨a :: pre, e, post, rfl, ?_, he⟩
      intro x hx
      rcases List.mem_cons.1 hx with rfl | hx
      · simpa using ha
      · exact hpre x hx

theorem idEq_false_of_ne {id : String} {pre : List Entry} (h : ∀ x ∈ pre, x.id ≠ id) :
    ∀ x ∈ pre, (fun e : Entry => e.id == id) x = false := by
  intro x hx
  simpa using h x hx

theorem entry_split (lore : List Entry) (id : String) (h : ∃ e ∈ lore, e.id = id) :
    ∃ pre e post, lore = pre ++ e :: post ∧ (∀ x ∈ pre, x.id ≠ id) ∧ e.id = id := by
  obtain ⟨pre, e, post, hl, hpre, he⟩ :=
    first_match_split (fun e : Entry => e.id == id) lore
      (by obtain ⟨e, he, hid⟩ := h; exact ⟨e, he, by simpa using hid⟩)
  refine ⟨pre, e, post, hl, ?_, by simpa using he⟩
  intro x hx
  simpa using hpre x hx

theorem updateEntry_absent (lore : List Entry) (id : String) (b : EntryBody) (now : Nat)
    (h : ∀ e ∈ lore, e.id ≠ id) : updateEntry lore id b now = (.error 404 "Not found", lore) := by
  have : findIndex (fun e : Entry => e.id == id) lore = none :=
    (findIndex_eq_none_iff _ _).2 (idEq_false_of_ne h)
  simp [updateEntry, this]

theorem updateEntry_first (pre : List Entry) (e : Entry) (post : List Entry) (id : String)
    (b : EntryBody) (now : Nat) (hpre : ∀ x ∈ pre, x.id ≠ id) (he : e.id = id) :
    updateEntry (pre ++ e :: post) id b now =
      match mergedEntry e b now with
      | some e2 => (.json 200 e2, pre ++ e2 :: post)
      | none => (.typeError, pre ++ e :: post) := by
  obtain ⟨i, hi, hget, hset⟩ := findIndex_first (fun e : Entry => e.id == id) pre e post
    (idEq_false_of_ne hpre) (by simpa using he)
  simp only [updateEntry, hi, hget]
  cases mergedEntry e b now with
  | none => rfl
  | some e2 => simp [hset]

theorem attachMedia_absent (lore : List Entry) (id : String) (m : Media) (now : Nat)
    (h : ∀ e ∈ lore, e.id ≠ id) :
    attachMedia lore id m now = (.error 404 "Lore entry not found", lore) := by
  have : findIndex (fun e : Entry => e.id == id) lore = none :=
    (findIndex_eq_none_iff _ _).2 (idEq_false_of_ne h)
  simp [attachMedia, this]

theorem attachMedia_first (pre : List Entry) (e : Entry) (post : List Entry) (id : String)
    (m : Media) (now : Nat) (hpre : ∀ x ∈ pre, x.id ≠ id) (he : e.id = id) :
    attachMedia (pre ++ e :: post) id m now =
      (.json 200 { e with media := some (e.media.getD [] ++ [m]), updatedAt := now },
        pre ++ { e with media := some (e.media.getD [] ++ [m]), updatedAt := now } :: post) := by
  obtain ⟨i, hi, hget, hset⟩ := findIndex_first (fun e : Entry => e.id == id) pre e post
    (idEq_false_of_ne hpre) (by simpa using he)
  simp only [attachMedia, hi, hget, hset]
  cases e.media <;> rfl

theorem detachMedia_absent (lore : List Entry) (id filename : String) (now : Nat)
    (h : ∀ e ∈ lore, e.id ≠ id) :
    detachMedia lore id filename now = (.error 404 "Lore entry not found", lore) := by
  have : findIndex (fun e : Entry => e.id == id) lore = none :=
    (findIndex_eq_none_iff _ _).2 (idEq_false_of_ne h)
  simp [detachMedia, this]

theorem detachMedia_first (pre : List Entry) (e : Entry) (post : List Entry)
    (id filename : String) (now : Nat) (hpre : ∀ x ∈ pre, x.id ≠ id) (he : e.id = id) :
    detachMedia (pre ++ e :: post) id filename now =
      match e.media with
      | none => (.typeError, pre ++ e :: post)
      | some ms =>
        if (ms.filter (fun m => m.filename != filename)).length == ms.length then
          (.error 404 "Media not found on entry", pre ++ e :: post)
        else
          (.json 200 { e with media := some (ms.filter (fun m => m.filename != filename)),
                              updatedAt := now },
            pre ++ { e with media := some (ms.filter (fun m => m.filename != filename)),
                            updatedAt := now } :: post) := by
  obtain ⟨i, hi, hget, hset⟩ := findIndex_first (fun e : Entry => e.id == id) pre e post
    (idEq_false_of_ne hpre) (by simpa using he)
  simp only [detachMedia, hi, hget, hset]

theorem mergedEntry_id {cur e : Entry} {b : EntryBody} {now : Nat}
    (h : mergedEntry cur b now = some e) : e.id = cur.id ∧ e.media = cur.media := by
  simp only [mergedEntry, Option.bind_eq_bind, Option.pure_def, Option.bind_eq_some] at h
  obtain ⟨_, _, _, _, _, _, _, _, h⟩ := h
  simp only [Option.some.injEq] at h
  subst h
  exact ⟨rfl, rfl⟩

theorem newEntry_id {e : Entry} {b : EntryBody} {now : Nat}
    (h : newEntry b now = some e) : e.id = entryId now ∧ e.media = some [] := by
  simp only [newEntry, Option.bind_eq_bind, Option.pure_def, Option.bind_eq_some] at h
  obtain ⟨_, _, _, _, _, _, _, _, h⟩ := h
  simp only [Option.some.injEq] at h
  subst h
  exact ⟨rfl, rfl⟩

/-! ## Ids along a trace -/

theorem createEntry_cases (lore : List Entry) (b : EntryBody) (now : Nat) :
    createEntry lore b now = (.typeError, lore) ∨
    ∃ e, newEntry b now = some e ∧ createEntry lore b now = (.json 201 e, lore ++ [e]) := by
  unfold createEntry
  cases h : newEntry b now with
  | none => exact Or.inl rfl
  | some e => exact Or.inr ⟨e, rfl, rfl⟩

theorem updateEntry_ids (lore : List Entry) (id : String) (b : EntryBody) (now : Nat) :
    (updateEntry lore id b now).2.map Entry.id = lore.map Entry.id := by
  by_cases h : ∃ e ∈ lore, e.id = id
  · obtain ⟨pre, e, post, rfl, hpre, he⟩ := entry_split lore id h
    rw [updateEntry_first pre e post id b now hpre he]
    cases hm : mergedEntry e b now with
    | none => rfl
    | some e2 => simp [(mergedEntry_id hm).1]
  · rw [updateEntry_absent lore id b now (by simpa using h)]

theorem attachMedia_ids (lore : List Entry) (id : String) (m : Media) (now : Nat) :
    (attachMedia lore id m now).2.map Entry.id = lore.map Entry.id := by
  by_cases h : ∃ e ∈ lore, e.id = id
  · obtain ⟨pre, e, post, rfl, hpre, he⟩ := entry_split lore id h
    rw [attachMedia_first pre e post id m now hpre he]
    simp
  · rw [attachMedia_absent lore id m now (by simpa using h)]

theorem detachMedia_ids (lore : List Entry) (id filename : String) (now : Nat) :
    (detachMedia lore id filename now).2.map Entry.id = lore.map Entry.id := by
  by_cases h : ∃ e ∈ lore, e.id = id
  · obtain ⟨pre, e, post, rfl, hpre, he⟩ := entry_split lore id h
    rw [detachMedia_first pre e post id filename now hpre he]
    cases e.media with
    | none => rfl
    | some ms =>
      simp only []
      split <;> simp
  · rw [detachMedia_absent lore id filename now (by simpa using h)]

theorem deleteEntry_sublist (lore : List Entry) (id : String) :
    (deleteEntry lore id).2.Sublist lore := by
  unfold deleteEntry
  simp only []
  split
  · exact List.Sublist.refl _
  · exact List.filter_sublist _

theorem createClocks_append (xs ys : List Request) :
    createClocks (xs ++ ys) = createClocks xs ++ createClocks ys := by
  induction xs with
  | nil => rfl
  | cons r t ih => cases r <;> simp [createClocks, ih]

theorem run_append (lore : List Entry) (xs : List Request) (r : Request) :
    run lore (xs ++ [r]) = step (run lore xs) r := by
  simp [run, List.foldl_append]

/-- Along a trace whose create requests read strictly increasing clock values, ids stay
pairwise distinct and every id is the id of one of the create clock values. -/
theorem ids_nodup_aux (reqs : List Request) :
    (createClocks reqs).Pairwise (· < ·) →
    ((run [] reqs).map Entry.id).Nodup ∧
      ∀ x ∈ (run [] reqs).map Entry.id, ∃ t ∈ createClocks reqs, x = entryId t := by
  induction reqs using List.reverseRecOn with
  | nil => intro _; simp [run]
  | append_singleton xs r ih =>
    intro hp
    rw [createClocks_append, List.pairwise_append] at hp
    obtain ⟨hxs, _, hlt⟩ := hp
    obtain ⟨hnd, hmem⟩ := ih hxs
    rw [run_append, createClocks_append]
    have keep : ∀ l : List Entry, (l.map Entry.id).Sublist ((run [] xs).map Entry.id) →
        (l.map Entry.id).Nodup ∧
          ∀ x ∈ l.map Entry.id, ∃ t ∈ createClocks xs ++ createClocks [r], x = entryId t := by
      intro l hl
      refine ⟨hnd.sublist hl, ?_⟩
      intro x hx
      obtain ⟨t, ht, rfl⟩ := hmem x (hl.subset hx)
      exact ⟨t, List.mem_append_left _ ht, rfl⟩
    cases r with
    | create b now =>
      rcases createEntry_cases (run [] xs) b now with h | ⟨e, hne, h⟩
      · simp only [step, h]
        exact keep _ (List.Sublist.refl _)
      · simp only [step, h, List.map_append, List.map_cons, List.map_nil, (newEntry_id hne).1]
        constructor
        · rw [List.nodup_append]
          refine ⟨hnd, by simp, ?_⟩
          intro x hx hx2
          simp only [List.mem_singleton] at hx2
          subst hx2
          obtain ⟨t, ht, hteq⟩ := hmem _ hx
          have := hlt t ht now (by simp [createClocks])
          have := entryId_injective hteq
          omega
        · intro x hx
          rcases List.mem_append.1 hx with hx | hx
          · obtain ⟨t, ht, rfl⟩ := hmem x hx
            exact ⟨t, List.mem_append_left _ ht, rfl⟩
          · simp only [List.mem_singleton] at hx
            exact ⟨now, by simp [createClocks], hx⟩
    | update id b now =>
      simp only [step]
      exact keep _ (by rw [updateEntry_ids])
    | delete id =>
      simp only [step]
      exact keep _ ((deleteEntry_sublist _ _).map _)
    | attach id m now =>
      simp only [step]
      exact keep _ (by rw [attachMedia_ids])
    | detach id filename now =>
      simp only [step]
      exact keep _ (by rw [detachMedia_ids])

/-! ## C1: the title of a created entry -/

/-- C1 (the code diverges from the claim): a create request with an absent or empty title is
stored with title "Untitled", but a create request whose title is white space only is stored
with the empty title. -/
theorem C1_whitespace_title_stored_empty :
    createEntry [] ⟨.undefined, .str "npc", .arr [], .str "text"⟩ 7 =
      (.json 201 ⟨"id-7", "Untitled", "npc", [], "text", some [], 7⟩,
        [⟨"id-7", "Untitled", "npc", [], "text", some [], 7⟩]) ∧
    createEntry [] ⟨.str "", .str "npc", .arr [], .str "text"⟩ 7 =
      (.json 201 ⟨"id-7", "Untitled", "npc", [], "text", some [], 7⟩,
        [⟨"id-7", "Untitled", "npc", [], "text", some [], 7⟩]) ∧
    createEntry [] ⟨.str "   ", .str "npc", .arr [], .str "text"⟩ 7 =
      (.json 201 ⟨"id-7", "", "npc", [], "text", some [], 7⟩,
        [⟨"id-7", "", "npc", [], "text", some [], 7⟩]) := by
  refine ⟨by decide, by decide, by decide⟩

/-! ## C2: uniqueness of ids -/

/-- C2, as stated, fails: two create requests that read the same clock value (a
non-decreasing clock) store two entries with the same id. -/
theorem C2_counterexample :
    (createClocks [.create ⟨.str "a", .undefined, .undefined, .undefined⟩ 7,
        .create ⟨.str "b", .undefined, .undefined, .undefined⟩ 7]).Chain' (· ≤ ·) ∧
    ¬ ((run [] [.create ⟨.str "a", .undefined, .undefined, .undefined⟩ 7,
        .create ⟨.str "b", .undefined, .undefined, .undefined⟩ 7]).map Entry.id).Nodup := by
  constructor
  · simp [createClocks]
  · decide

/-- C2 (amended): in every collection reached from the empty collection by create, update,
delete, attachMedia and detachMedia requests in which each create reads a clock value
strictly greater than the previous create, no two entries have the same id. -/
theorem C2_ids_unique_strict_clock (reqs : List Request)
    (h : (createClocks reqs).Chain' (· < ·)) :
    ((run [] reqs).map Entry.id).Nodup :=
  (ids_nodup_aux reqs (List.chain'_iff_pairwise.1 h)).1

theorem C2_ids_unique_strict_clock_witness :
    ((run [] [.create ⟨.str "a", .undefined, .undefined, .undefined⟩ 7,
        .update "id-7" ⟨.str "c", .undefined, .undefined, .undefined⟩ 8,
        .create ⟨.str "b", .undefined, .undefined, .undefined⟩ 9]).map Entry.id).Nodup :=
  C2_ids_unique_strict_clock _ (by simp [createClocks])

/-! ## Every stored entry is well formed -/

theorem callTrim_some {v : JVal} {t : String} (h : v.callTrim = some t) :
    ∃ s, v = .str s ∧ t = trim s := by
  cases v <;> simp [JVal.callTrim] at h
  exact ⟨_, rfl, h.symm⟩

theorem callTrim_noOuter {v : JVal} {t : String} (h : v.callTrim = some t) :
    NoOuterWhiteSpace t := by
  obtain ⟨s, _, rfl⟩ := callTrim_some h
  exact trim_noOuterWhiteSpace s

theorem mapTrim_noOuter : ∀ (items : List JVal) (ts : List String),
    mapTrim items = some ts → ∀ t ∈ ts, NoOuterWhiteSpace t := by
  intro items
  induction items with
  | nil =>
    intro ts h t ht
    simp [mapTrim] at h
    subst h
    simp at ht
  | cons v rest ih =>
    intro ts h t ht
    simp only [mapTrim, Option.bind_eq_bind, Option.pure_def, Option.bind_eq_some] at h
    obtain ⟨t0, h0, ts0, hrest, h⟩ := h
    simp only [Option.some.injEq] at h
    subst h
    rcases List.mem_cons.1 ht with rfl | ht
    · exact callTrim_noOuter h0
    · exact ih ts0 hrest t ht

theorem mapTrim_strings (ss : List String) :
    mapTrim (ss.map JVal.str) = some (ss.map trim) := by
  induction ss with
  | nil => rfl
  | cons s t ih => simp [mapTrim, JVal.callTrim, ih]

theorem trimTags_strings (ss : List String) :
    trimTags (ss.map JVal.str) = some ((ss.map trim).filter (fun t => t != "")) := by
  simp [trimTags, mapTrim_strings]

theorem trimTags_wellFormed {items : List JVal} {ts : List String}
    (h : trimTags items = some ts) : ∀ t ∈ ts, t ≠ "" ∧ NoOuterWhiteSpace t := by
  simp only [trimTags, Option.map_eq_some'] at h
  obtain ⟨ts0, h0, rfl⟩ := h
  intro t ht
  rw [List.mem_filter] at ht
  exact ⟨by simpa using ht.2, mapTrim_noOuter items ts0 h0 t ht.1⟩

theorem newEntry_wellFormed {b : EntryBody} {now : Nat} {e : Entry}
    (h : newEntry b now = some e) : WellFormed e := by
  simp only [newEntry, Option.bind_eq_bind, Option.pure_def, Option.bind_eq_some] at h
  obtain ⟨title, h1, type, h2, tags, h3, body, h4, h⟩ := h
  simp only [Option.some.injEq] at h
  subst h
  refine ⟨callTrim_noOuter h1, callTrim_noOuter h2, callTrim_noOuter h4, ?_, by simp⟩
  cases hb : b.tags <;> rw [hb] at h3 <;> simp only [Option.some.injEq] at h3
  case arr items => exact trimTags_wellFormed h3
  all_goals (subst h3; simp)

theorem mergedEntry_wellFormed {cur : Entry} {b : EntryBody} {now : Nat} {e : Entry}
    (hc : WellFormed cur) (h : mergedEntry cur b now = some e) : WellFormed e := by
  simp only [mergedEntry, Option.bind_eq_bind, Option.pure_def, Option.bind_eq_some] at h
  obtain ⟨title, h1, type, h2, tags, h3, body, h4, h⟩ := h
  simp only [Option.some.injEq] at h
  subst h
  refine ⟨callTrim_noOuter h1, callTrim_noOuter h2, callTrim_noOuter h4, ?_, hc.2.2.2.2⟩
  cases hb : b.tags <;> rw [hb] at h3 <;> simp only [Option.some.injEq] at h3
  case arr items => exact trimTags_wellFormed h3
  all_goals (subst h3; exact hc.2.2.2.1)

theorem step_wellFormed (lore : List Entry) (r : Request) (h : ∀ e ∈ lore, WellFormed e) :
    ∀ e ∈ step lore r, WellFormed e := by
  have replaced : ∀ (pre post : List Entry) (e e2 : Entry), lore = pre ++ e :: post →
      WellFormed e2 → ∀ x ∈ pre ++ e2 :: post, WellFormed x := by
    intro pre post e e2 hl he2 x hx
    subst hl
    rcases List.mem_append.1 hx with hx | hx
    · exact h x (List.mem_append_left _ hx)
    · rcases List.mem_cons.1 hx with rfl | hx
      · exact he2
      · exact h x (List.mem_append_right _ (List.mem_cons_of_mem _ hx))
  cases r with
  | create b now =>
    rcases createEntry_cases lore b now with hc | ⟨e, hne, hc⟩
    · simpa only [step, hc] using h
    · simp only [step, hc]
      intro x hx
      rcases List.mem_append.1 hx with hx | hx
      · exact h x hx
      · simp only [List.mem_singleton] at hx
        subst hx
        exact newEntry_wellFormed hne
  | update id b now =>
    simp only [step]
    by_cases hid : ∃ e ∈ lore, e.id = id
    · obtain ⟨pre, e, post, hl, hpre, he⟩ := entry_split lore id hid
      have hwe : WellFormed e := h e (by rw [hl]; simp)
      have hup := updateEntry_first pre e post id b now hpre he
      rw [← hl] at hup
      rw [hup]
      cases hm : mergedEntry e b now with
      | none => simpa [← hl] using h
      | some e2 => exact replaced pre post e e2 hl (mergedEntry_wellFormed hwe hm)
    · rw [updateEntry_absent lore id b now (by simpa using hid)]
      exact h
  | delete id =>
    simp only [step]
    intro x hx
    exact h x ((deleteEntry_sublist lore id).subset hx)
  | attach id m now =>
    simp only [step]
    by_cases hid : ∃ e ∈ lore, e.id = id
    · obtain ⟨pre, e, post, hl, hpre, he⟩ := entry_split lore id hid
      have hwe : WellFormed e := h e (by rw [hl]; simp)
      have hup := attachMedia_first pre e post id m now hpre he
      rw [← hl] at hup
      rw [hup]
      exact replaced pre post e _ hl ⟨hwe.1, hwe.2.1, hwe.2.2.1, hwe.2.2.2.1, by simp⟩
    · rw [attachMedia_absent lore id m now (by simpa using hid)]
      exact h
  | detach id filename now =>
    simp only [step]
    by_cases hid : ∃ e ∈ lore, e.id = id
    · obtain ⟨pre, e, post, hl, hpre, he⟩ := entry_split lore id hid
      have hwe : WellFormed e := h e (by rw [hl]; simp)
      have hup := detachMedia_first pre e post id filename now hpre he
      rw [← hl] at hup
      rw [hup]
      cases hmed : e.media with
      | none => simpa [← hl] using h
      | some ms =>
        simp only []
        split
        · simpa [← hl] using h
        · exact replaced pre post e _ hl ⟨hwe.1, hwe.2.1, hwe.2.2.1, hwe.2.2.2.1, by simp⟩
    · rw [detachMedia_absent lore id filename now (by simpa using hid)]
      exact h

theorem run_wellFormed (reqs : List Request) : ∀ lore : List Entry,
    (∀ e ∈ lore, WellFormed e) → ∀ e ∈ run lore reqs, WellFormed e := by
  induction reqs with
  | nil => intro lore h; simpa [run] using h
  | cons r rest ih =>
    intro lore h
    have := ih (step lore r) (step_wellFormed lore r h)
    simpa [run] using this

theorem reachable_wellFormed {lore : List Entry} (h : Reachable lore) :
    ∀ e ∈ lore, WellFormed e := by
  obtain ⟨reqs, rfl⟩ := h
  exact run_wellFormed reqs [] (by simp)

/-! ## C3: NotFound answers leave the collection alone -/

theorem detachMedia_no_match (pre : List Entry) (e : Entry) (post : List Entry)
    (id filename : String) (now : Nat) (ms : List Media) (hpre : ∀ x ∈ pre, x.id ≠ id)
    (he : e.id = id) (hmed : e.media = some ms) (hno : ∀ m ∈ ms, m.filename ≠ filename) :
    detachMedia (pre ++ e :: post) id filename now =
      (.error 404 "Media not found on entry", pre ++ e :: post) := by
  rw [detachMedia_first pre e post id filename now hpre he, hmed]
  have : ms.filter (fun m => m.filename != filename) = ms := by
    rw [List.filter_eq_self]
    intro m hm
    simpa using hno m hm
  simp [this]

/-- C3: updateEntry answers 404 "Not found" exactly when no stored entry has the given id,
and then the persisted collection is unchanged; detachMedia on the (first) entry with the
given id, when none of its media references has the given filename, answers 404 "Media not
found on entry" and leaves the persisted collection unchanged, media and updatedAt of that
entry included.  The detach part holds for every collection in which that entry has a media
array, and so for every collection reachable through the API. -/
theorem C3_not_found_leaves_collection :
    (∀ (lore : List Entry) (id : String) (b : EntryBody) (now : Nat),
      ((updateEntry lore id b now).1 = .error 404 "Not found" ↔ ∀ e ∈ lore, e.id ≠ id) ∧
      ((∀ e ∈ lore, e.id ≠ id) → (updateEntry lore id b now).2 = lore)) ∧
    (∀ (pre : List Entry) (e : Entry) (post : List Entry) (id filename : String) (now : Nat)
      (ms : List Media), (∀ x ∈ pre, x.id ≠ id) → e.id = id → e.media = some ms →
      (∀ m ∈ ms, m.filename ≠ filename) →
      detachMedia (pre ++ e :: post) id filename now =
        (.error 404 "Media not found on entry", pre ++ e :: post)) ∧
    (∀ (pre : List Entry) (e : Entry) (post : List Entry) (id filename : String) (now : Nat),
      Reachable (pre ++ e :: post) → (∀ x ∈ pre, x.id ≠ id) → e.id = id →
      (∀ m ∈ e.media.getD [], m.filename ≠ filename) →
      detachMedia (pre ++ e :: post) id filename now =
        (.error 404 "Media not found on entry", pre ++ e :: post)) := by
  refine ⟨?_, ?_, ?_⟩
  · intro lore id b now
    constructor
    · constructor
      · intro h
        by_contra hne
        have hid : ∃ e ∈ lore, e.id = id := by
          by_contra hno
          exact hne (by simpa using hno)
        obtain ⟨pre, e, post, rfl, hpre, he⟩ := entry_split lore id hid
        rw [updateEntry_first pre e post id b now hpre he] at h
        cases hm : mergedEntry e b now <;> rw [hm] at h <;> simp at h
      · intro h
        rw [updateEntry_absent lore id b now h]
    · intro h
      rw [updateEntry_absent lore id b now h]
  · intro pre e post id filename now ms hpre he hmed hno
    exact detachMedia_no_match pre e post id filename now ms hpre he hmed hno
  · intro pre e post id filename now hR hpre he hno
    have hwf : WellFormed e := reachable_wellFormed hR e (by simp)
    cases hmed : e.media with
    | none => exact absurd hmed hwf.2.2.2.2
    | some ms =>
      rw [hmed] at hno
      exact detachMedia_no_match pre e post id filename now ms hpre he hmed hno

theorem C3_not_found_leaves_collection_witness :
    detachMedia ([⟨"id-1", "a", "", [], "", some [], 1⟩] ++
        ⟨"id-2", "b", "", [], "", some [⟨"x_5.png", "/uploads/x_5.png", "image/png", "image"⟩],
          2⟩ :: []) "id-2" "y_6.png" 9 =
      (.error 404 "Media not found on entry",
        [⟨"id-1", "a", "", [], "", some [], 1⟩] ++
        ⟨"id-2", "b", "", [], "", some [⟨"x_5.png", "/uploads/x_5.png", "image/png", "image"⟩],
          2⟩ :: []) :=
  C3_not_found_leaves_collection.2.1 _ _ _ "id-2" "y_6.png" 9 _ (by decide) rfl rfl (by decide)

/-! ## C4: what an update leaves unchanged -/

/-- C4: in a collection reachable through the API, an update of a present id rewrites only
the first entry carrying that id: all entries before and after it, their number and their
order are unchanged, and the rewritten entry keeps its id and its media, keeps each of title,
type and body that the request omits, and keeps its tags unless the request gives tags as an
array. -/
theorem C4_update_frame (lore : List Entry) (hR : Reachable lore) (id : String)
    (b : EntryBody) (now : Nat) (hid : ∃ e ∈ lore, e.id = id) :
    ∃ pre e post e2, lore = pre ++ e :: post ∧ (∀ x ∈ pre, x.id ≠ id) ∧ e.id = id ∧
      (updateEntry lore id b now).2 = pre ++ e2 :: post ∧
      e2.id = e.id ∧ e2.media = e.media ∧
      (b.title = .undefined → e2.title = e.title) ∧
      (b.type = .undefined → e2.type = e.type) ∧
      (b.body = .undefined → e2.body = e.body) ∧
      (b.tags.isArray = false → e2.tags = e.tags) := by
  obtain ⟨pre, e, post, hl, hpre, he⟩ := entry_split lore id hid
  subst hl
  have hwf : WellFormed e := reachable_wellFormed hR e (by simp)
  have hup := updateEntry_first pre e post id b now hpre he
  cases hm : mergedEntry e b now with
  | none =>
    rw [hm] at hup
    exact ⟨pre, e, post, e, rfl, hpre, he, by rw [hup], rfl, rfl, fun _ => rfl, fun _ => rfl,
      fun _ => rfl, fun _ => rfl⟩
  | some e2 =>
    rw [hm] at hup
    refine ⟨pre, e, post, e2, rfl, hpre, he, by rw [hup], (mergedEntry_id hm).1,
      (mergedEntry_id hm).2, ?_, ?_, ?_, ?_⟩
    all_goals
      simp only [mergedEntry, Option.bind_eq_bind, Option.pure_def, Option.bind_eq_some] at hm
      obtain ⟨title, h1, type, h2, tags, h3, body, h4, h⟩ := hm
      simp only [Option.some.injEq] at h
      subst h
      intro hb
    · rw [hb] at h1
      simp only [JVal.nullish, JVal.callTrim, Option.some.injEq] at h1
      rw [← h1]
      exact trim_eq_self hwf.1
    · rw [hb] at h2
      simp only [JVal.nullish, JVal.callTrim, Option.some.injEq] at h2
      rw [← h2]
      exact trim_eq_self hwf.2.1
    · rw [hb] at h4
      simp only [JVal.nullish, JVal.callTrim, Option.some.injEq] at h4
      rw [← h4]
      exact trim_eq_self hwf.2.2.1
    · cases hbt : b.tags <;> rw [hbt] at h3 hb <;> simp [JVal.isArray] at hb h3 <;>
        exact h3.symm

theorem C4_update_frame_witness :
    ∃ pre e post e2,
      run [] [.create ⟨.str "a", .str "npc", .arr [.str "x"], .str "text"⟩ 7] =
        pre ++ e :: post ∧ (∀ x ∈ pre, x.id ≠ "id-7") ∧ e.id = "id-7" ∧
      (updateEntry (run [] [.create ⟨.str "a", .str "npc", .arr [.str "x"], .str "text"⟩ 7])
        "id-7" ⟨.str "b", .undefined, .undefined, .undefined⟩ 8).2 = pre ++ e2 :: post ∧
      e2.id = e.id ∧ e2.media = e.media ∧
      ((⟨.str "b", .undefined, .undefined, .undefined⟩ : EntryBody).title = .undefined →
        e2.title = e.title) ∧
      ((⟨.str "b", .undefined, .undefined, .undefined⟩ : EntryBody).type = .undefined →
        e2.type = e.type) ∧
      ((⟨.str "b", .undefined, .undefined, .undefined⟩ : EntryBody).body = .undefined →
        e2.body = e.body) ∧
      ((⟨.str "b", .undefined, .undefined, .undefined⟩ : EntryBody).tags.isArray = false →
        e2.tags = e.tags) :=
  C4_update_frame _ ⟨_, rfl⟩ "id-7" _ 8 ⟨⟨"id-7", "a", "npc", ["x"], "text", some [], 7⟩,
    by decide, rfl⟩

/-! ## C5: explicit empty values against omitted fields -/

/-- C5, as stated, fails: on a stored entry, an update that sets title, type or body to the
empty string, or tags to the empty array, does not give the entry that the same update with
the field omitted gives (same clock value). -/
theorem C5_counterexample :
    mergedEntry ⟨"id-7", "a", "npc", ["x"], "text", some [], 7⟩
        ⟨.str "", .undefined, .undefined, .undefined⟩ 8 ≠
      mergedEntry ⟨"id-7", "a", "npc", ["x"], "text", some [], 7⟩
        ⟨.undefined, .undefined, .undefined, .undefined⟩ 8 ∧
    mergedEntry ⟨"id-7", "a", "npc", ["x"], "text", some [], 7⟩
        ⟨.undefined, .str "", .undefined, .undefined⟩ 8 ≠
      mergedEntry ⟨"id-7", "a", "npc", ["x"], "text", some [], 7⟩
        ⟨.undefined, .undefined, .undefined, .undefined⟩ 8 ∧
    mergedEntry ⟨"id-7", "a", "npc", ["x"], "text", some [], 7⟩
        ⟨.undefined, .undefined, .arr [], .undefined⟩ 8 ≠
      mergedEntry ⟨"id-7", "a", "npc", ["x"], "text", some [], 7⟩
        ⟨.undefined, .undefined, .undefined, .undefined⟩ 8 ∧
    mergedEntry ⟨"id-7", "a", "npc", ["x"], "text", some [], 7⟩
        ⟨.undefined, .undefined, .undefined, .str ""⟩ 8 ≠
      mergedEntry ⟨"id-7", "a", "npc", ["x"], "text", some [], 7⟩
        ⟨.undefined, .undefined, .undefined, .undefined⟩ 8 ∧
    (updateEntry [⟨"id-7", "a", "npc", ["x"], "text", some [], 7⟩] "id-7"
        ⟨.undefined, .undefined, .arr [], .undefined⟩ 8).2 =
      [⟨"id-7", "a", "npc", [], "text", some [], 8⟩] ∧
    (updateEntry [⟨"id-7", "a", "npc", ["x"], "text", some [], 7⟩] "id-7"
        ⟨.undefined, .undefined, .undefined, .undefined⟩ 8).2 =
      [⟨"id-7", "a", "npc", ["x"], "text", some [], 8⟩] := by
  refine ⟨by decide, by decide, by decide, by decide, by decide, by decide⟩

/-- C5 (amended): an update that gives title, type or body as null, or tags as any value
that is not an array, has the same outcome as the same update with that field omitted (same
clock value); an update that gives title, type or body as the empty string, or tags as the
empty array, yields the entry of the update with that field omitted but with that field
set to empty. -/
theorem C5_null_is_omitted_empty_is_stored (lore : List Entry) (id : String) (cur : Entry)
    (b : EntryBody) (now : Nat) :
    updateEntry lore id { b with title := .null } now =
      updateEntry lore id { b with title := .undefined } now ∧
    updateEntry lore id { b with type := .null } now =
      updateEntry lore id { b with type := .undefined } now ∧
    updateEntry lore id { b with body := .null } now =
      updateEntry lore id { b with body := .undefined } now ∧
    (∀ v : JVal, v.isArray = false →
      updateEntry lore id { b with tags := v } now =
        updateEntry lore id { b with tags := .undefined } now) ∧
    mergedEntry cur { b with title := .str "" } now =
      (mergedEntry cur { b with title := .undefined } now).map
        (fun e => { e with title := "" }) ∧
    mergedEntry cur { b with type := .str "" } now =
      (mergedEntry cur { b with type := .undefined } now).map
        (fun e => { e with type := "" }) ∧
    mergedEntry cur { b with body := .str "" } now =
      (mergedEntry cur { b with body := .undefined } now).map
        (fun e => { e with body := "" }) ∧
    mergedEntry cur { b with tags := .arr [] } now =
      (mergedEntry cur { b with tags := .undefined } now).map
        (fun e => { e with tags := [] }) := by
  have htrim : trim "" = "" := by decide
  refine ⟨rfl, rfl, rfl, ?_, ?_, ?_, ?_, ?_⟩
  · intro v hv
    cases v <;> first | rfl | simp [JVal.isArray] at hv
  · simp only [mergedEntry, JVal.nullish, JVal.callTrim, htrim, Option.bind_eq_bind,
      Option.pure_def, Option.some_bind]
    cases (b.type.nullish (.str cur.type)).callTrim <;> simp
  · simp only [mergedEntry, JVal.nullish, JVal.callTrim, htrim, Option.bind_eq_bind,
      Option.pure_def, Option.some_bind]
    cases (b.title.nullish (.str cur.title)).callTrim <;> simp
  · simp only [mergedEntry, JVal.nullish, JVal.callTrim, htrim, Option.bind_eq_bind,
      Option.pure_def, Option.some_bind]
    cases (b.title.nullish (.str cur.title)).callTrim <;> simp
  · have ht : trimTags [] = some [] := rfl
    simp only [mergedEntry, ht, Option.bind_eq_bind, Option.pure_def, Option.some_bind]
    cases (b.title.nullish (.str cur.title)).callTrim <;> simp

theorem C5_null_is_omitted_empty_is_stored_witness :
    updateEntry [⟨"id-7", "a", "npc", ["x"], "text", some [], 7⟩] "id-7"
        { (⟨.str "b", .undefined, .undefined, .undefined⟩ : EntryBody) with
          tags := .str "x, y" } 8 =
      updateEntry [⟨"id-7", "a", "npc", ["x"], "text", some [], 7⟩] "id-7"
        { (⟨.str "b", .undefined, .undefined, .undefined⟩ : EntryBody) with
          tags := .undefined } 8 :=
  (C5_null_is_omitted_empty_is_stored [⟨"id-7", "a", "npc", ["x"], "text", some [], 7⟩]
    "id-7" ⟨"id-7", "a", "npc", ["x"], "text", some [], 7⟩
    ⟨.str "b", .undefined, .undefined, .undefined⟩ 8).2.2.2.1 (.str "x, y") rfl

/-! ## C7: attaching appends -/

/-- C7: for every collection and every attachMedia request whose id is present, the answer
is the first entry with that id, its media replaced by the previous media (the empty
sequence when absent) followed by the new reference, and its updatedAt by the clock value;
all other entries are unchanged; a second attach on the same id appends after the first. -/
theorem C7_attach_appends (lore : List Entry) (id : String) (m : Media) (now : Nat)
    (hid : ∃ e ∈ lore, e.id = id) :
    ∃ pre e post, lore = pre ++ e :: post ∧ (∀ x ∈ pre, x.id ≠ id) ∧ e.id = id ∧
      attachMedia lore id m now =
        (.json 200 { e with media := some (e.media.getD [] ++ [m]), updatedAt := now },
          pre ++ { e with media := some (e.media.getD [] ++ [m]), updatedAt := now } :: post) ∧
      (e.media.getD [] ++ [m]).length = (e.media.getD []).length + 1 ∧
      ∀ (m2 : Media) (now2 : Nat),
        attachMedia (attachMedia lore id m now).2 id m2 now2 =
          (.json 200 { e with media := some (e.media.getD [] ++ [m, m2]), updatedAt := now2 },
            pre ++ { e with media := some (e.media.getD [] ++ [m, m2]), updatedAt := now2 }
              :: post) := by
  obtain ⟨pre, e, post, hl, hpre, he⟩ := entry_split lore id hid
  subst hl
  refine ⟨pre, e, post, rfl, hpre, he, attachMedia_first pre e post id m now hpre he,
    by simp, ?_⟩
  intro m2 now2
  rw [attachMedia_first pre e post id m now hpre he]
  have h2 := attachMedia_first pre
    { e with media := some (e.media.getD [] ++ [m]), updatedAt := now } post id m2 now2 hpre he
  simpa using h2

theorem C7_attach_appends_witness :
    ∃ pre e post,
      [(⟨"id-7", "a", "npc", [], "text", none, 7⟩ : Entry)] = pre ++ e :: post ∧
      (∀ x ∈ pre, x.id ≠ "id-7") ∧ e.id = "id-7" ∧
      attachMedia [⟨"id-7", "a", "npc", [], "text", none, 7⟩] "id-7"
          ⟨"x_5.png", "/uploads/x_5.png", "image/png", "image"⟩ 8 =
        (.json 200 { e with updatedAt := 8, media := some (e.media.getD [] ++
            [⟨"x_5.png", "/uploads/x_5.png", "image/png", "image"⟩]) },
          pre ++ { e with updatedAt := 8, media := some (e.media.getD [] ++
            [⟨"x_5.png", "/uploads/x_5.png", "image/png", "image"⟩]) } :: post) ∧
      (e.media.getD [] ++ [(⟨"x_5.png", "/uploads/x_5.png", "image/png", "image"⟩ : Media)]).length
        = (e.media.getD []).length + 1 ∧
      ∀ (m2 : Media) (now2 : Nat),
        attachMedia (attachMedia [⟨"id-7", "a", "npc", [], "text", none, 7⟩] "id-7"
          ⟨"x_5.png", "/uploads/x_5.png", "image/png", "image"⟩ 8).2 "id-7" m2 now2 =
          (.json 200 { e with updatedAt := now2, media := some (e.media.getD [] ++
              [⟨"x_5.png", "/uploads/x_5.png", "image/png", "image"⟩, m2]) },
            pre ++ { e with updatedAt := now2, media := some (e.media.getD [] ++
              [⟨"x_5.png", "/uploads/x_5.png", "image/png", "image"⟩, m2]) } :: post) :=
  C7_attach_appends [⟨"id-7", "a", "npc", [], "text", none, 7⟩] "id-7"
    ⟨"x_5.png", "/uploads/x_5.png", "image/png", "image"⟩ 8
    ⟨⟨"id-7", "a", "npc", [], "text", none, 7⟩, by decide, rfl⟩

/-! ## C6: detaching removes every matching reference -/

/-- C6, as stated, fails: after one create and two attach requests carrying the same
filename, the entry holds two references; one detachMedia request removes both, so the
media length drops by 2. -/
theorem C6_counterexample :
    run [] [.create ⟨.str "a", .undefined, .undefined, .undefined⟩ 7,
        .attach "id-7" ⟨"x_5.png", "/uploads/x_5.png", "image/png", "image"⟩ 8,
        .attach "id-7" ⟨"x_5.png", "/uploads/x_5.png", "image/png", "image"⟩ 9] =
      [⟨"id-7", "a", "", [], "", some [⟨"x_5.png", "/uploads/x_5.png", "image/png", "image"⟩,
        ⟨"x_5.png", "/uploads/x_5.png", "image/png", "image"⟩], 9⟩] ∧
    detachMedia (run [] [.create ⟨.str "a", .undefined, .undefined, .undefined⟩ 7,
        .attach "id-7" ⟨"x_5.png", "/uploads/x_5.png", "image/png", "image"⟩ 8,
        .attach "id-7" ⟨"x_5.png", "/uploads/x_5.png", "image/png", "image"⟩ 9])
        "id-7" "x_5.png" 10 =
      (.json 200 ⟨"id-7", "a", "", [], "", some [], 10⟩,
        [⟨"id-7", "a", "", [], "", some [], 10⟩]) := by
  refine ⟨by decide, by decide⟩

/-- C6 (amended): in a collection reachable through the API, a detachMedia request naming
the first entry with the given id, whose media holds at least one reference with the given
filename, removes every reference with that filename: the media length decreases by the
number of matching references, which is at least 1, the other references remain in their
original order, and when exactly one reference matches exactly that one is removed. -/
theorem C6_detach_removes_all_matches (pre : List Entry) (e : Entry) (post : List Entry)
    (hR : Reachable (pre ++ e :: post)) (id filename : String) (now : Nat)
    (hpre : ∀ x ∈ pre, x.id ≠ id) (he : e.id = id)
    (hm : ∃ m ∈ e.media.getD [], m.filename = filename) :
    ∃ ms, e.media = some ms ∧
      detachMedia (pre ++ e :: post) id filename now =
        (.json 200 { e with media := some (ms.filter (fun m => m.filename != filename)),
                            updatedAt := now },
          pre ++ { e with media := some (ms.filter (fun m => m.filename != filename)),
                          updatedAt := now } :: post) ∧
      (ms.filter (fun m => m.filename != filename)).length +
          ms.countP (fun m => m.filename == filename) = ms.length ∧
      1 ≤ ms.countP (fun m => m.filename == filename) ∧
      (ms.filter (fun m => m.filename != filename)).Sublist ms ∧
      (∀ x, x ∈ ms.filter (fun m => m.filename != filename) ↔ x ∈ ms ∧ x.filename ≠ filename) ∧
      ∀ (a : List Media) (m : Media) (c : List Media), ms = a ++ m :: c →
        m.filename = filename → (∀ x ∈ a, x.filename ≠ filename) →
        (∀ x ∈ c, x.filename ≠ filename) →
        ms.filter (fun m => m.filename != filename) = a ++ c := by
  have hwf : WellFormed e := reachable_wellFormed hR e (by simp)
  cases hmed : e.media with
  | none => exact absurd hmed hwf.2.2.2.2
  | some ms =>
    rw [hmed] at hm
    simp only [Option.getD_some] at hm
    have hcount : (ms.filter (fun m => m.filename != filename)).length +
        ms.countP (fun m => m.filename == filename) = ms.length := by
      clear hm hmed
      induction ms with
      | nil => simp
      | cons a t ih =>
        by_cases h : a.filename = filename <;>
          simp [List.filter_cons, List.countP_cons, h] <;> omega
    have hpos : 1 ≤ ms.countP (fun m => m.filename == filename) := by
      obtain ⟨m, hmem, hf⟩ := hm
      exact List.countP_pos_iff.2 ⟨m, hmem, by simpa using hf⟩
    refine ⟨ms, rfl, ?_, hcount, hpos, List.filter_sublist _, ?_, ?_⟩
    · rw [detachMedia_first pre e post id filename now hpre he, hmed]
      simp only []
      rw [if_neg]
      simp only [beq_iff_eq]
      omega
    · intro x
      simp [List.mem_filter]
    · intro a m c hms hmf ha hc
      subst hms
      have h1 : a.filter (fun m => m.filename != filename) = a := by
        rw [List.filter_eq_self]
        intro x hx
        simpa using ha x hx
      have h2 : c.filter (fun m => m.filename != filename) = c := by
        rw [List.filter_eq_self]
        intro x hx
        simpa using hc x hx
      simp [List.filter_append, List.filter_cons, h1, h2, hmf]

theorem C6_detach_removes_all_matches_witness :
    ∃ ms, (⟨"id-7", "a", "", [], "",
        some [⟨"x_5.png", "/uploads/x_5.png", "image/png", "image"⟩], 8⟩ : Entry).media = some ms ∧
      detachMedia ([] ++ ⟨"id-7", "a", "", [], "",
          some [⟨"x_5.png", "/uploads/x_5.png", "image/png", "image"⟩], 8⟩ :: [])
          "id-7" "x_5.png" 9 =
        (.json 200 ⟨"id-7", "a", "", [], "",
            some (ms.filter (fun m => m.filename != "x_5.png")), 9⟩,
          [] ++ ⟨"id-7", "a", "", [], "",
            some (ms.filter (fun m => m.filename != "x_5.png")), 9⟩ :: []) ∧
      (ms.filter (fun m => m.filename != "x_5.png")).length +
          ms.countP (fun m => m.filename == "x_5.png") = ms.length ∧
      1 ≤ ms.countP (fun m => m.filename == "x_5.png") ∧
      (ms.filter (fun m => m.filename != "x_5.png")).Sublist ms ∧
      (∀ x, x ∈ ms.filter (fun m => m.filename != "x_5.png") ↔
        x ∈ ms ∧ x.filename ≠ "x_5.png") ∧
      ∀ (a : List Media) (m : Media) (c : List Media), ms = a ++ m :: c →
        m.filename = "x_5.png" → (∀ x ∈ a, x.filename ≠ "x_5.png") →
        (∀ x ∈ c, x.filename ≠ "x_5.png") →
        ms.filter (fun m => m.filename != "x_5.png") = a ++ c :=
  C6_detach_removes_all_matches [] _ []
    ⟨[.create ⟨.str "a", .undefined, .undefined, .undefined⟩ 7,
      .attach "id-7" ⟨"x_5.png", "/uploads/x_5.png", "image/png", "image"⟩ 8], by decide⟩
    "id-7" "x_5.png" 9 (by simp) rfl
    ⟨⟨"x_5.png", "/uploads/x_5.png", "image/png", "image"⟩, by decide, rfl⟩

/-! ## C10: stored tags -/

theorem callTrim_or_isSome (v d : JVal) (s : String) (hd : d = .str s)
    (h : v.isStringOrAbsent = true) : ∃ t, (v.or d).callTrim = some t := by
  subst hd
  cases v <;> simp [JVal.isStringOrAbsent] at h
  · exact ⟨_, rfl⟩
  · rename_i s0
    by_cases hs : s0 = ""
    · subst hs
      exact ⟨_, rfl⟩
    · refine ⟨trim s0, ?_⟩
      simp [JVal.or, JVal.truthy, hs, JVal.callTrim]

theorem callTrim_nullish_isSome (v : JVal) (s : String)
    (h : v.isStringOrAbsent = true) : ∃ t, (v.nullish (.str s)).callTrim = some t := by
  cases v <;> simp [JVal.isStringOrAbsent] at h
  · exact ⟨_, rfl⟩
  · exact ⟨_, rfl⟩

theorem newEntry_tags {b : EntryBody} {now : Nat} {e : Entry} (ss : List String)
    (hb : b.tags = .arr (ss.map JVal.str)) (h : newEntry b now = some e) :
    e.tags = (ss.map trim).filter (fun t => t != "") := by
  simp only [newEntry, Option.bind_eq_bind, Option.pure_def, Option.bind_eq_some] at h
  obtain ⟨title, h1, type, h2, tags, h3, body, h4, h⟩ := h
  simp only [Option.some.injEq] at h
  subst h
  rw [hb] at h3
  simp only [trimTags_strings, Option.some.injEq] at h3
  exact h3.symm

theorem mergedEntry_tags {cur : Entry} {b : EntryBody} {now : Nat} {e : Entry}
    (ss : List String) (hb : b.tags = .arr (ss.map JVal.str))
    (h : mergedEntry cur b now = some e) :
    e.tags = (ss.map trim).filter (fun t => t != "") := by
  simp only [mergedEntry, Option.bind_eq_bind, Option.pure_def, Option.bind_eq_some] at h
  obtain ⟨title, h1, type, h2, tags, h3, body, h4, h⟩ := h
  simp only [Option.some.injEq] at h
  subst h
  rw [hb] at h3
  simp only [trimTags_strings, Option.some.injEq] at h3
  exact h3.symm

theorem newEntry_isSome (b : EntryBody) (now : Nat) (ss : List String)
    (hb : b.tags = .arr (ss.map JVal.str)) (h1 : b.title.isStringOrAbsent = true)
    (h2 : b.type.isStringOrAbsent = true) (h3 : b.body.isStringOrAbsent = true) :
    ∃ e, newEntry b now = some e := by
  obtain ⟨t1, e1⟩ := callTrim_or_isSome b.title _ "Untitled" rfl h1
  obtain ⟨t2, e2⟩ := callTrim_or_isSome b.type _ "" rfl h2
  obtain ⟨t3, e3⟩ := callTrim_or_isSome b.body _ "" rfl h3
  simp [newEntry, e1, e2, e3, hb, trimTags_strings]

theorem mergedEntry_isSome (cur : Entry) (b : EntryBody) (now : Nat) (ss : List String)
    (hb : b.tags = .arr (ss.map JVal.str)) (h1 : b.title.isStringOrAbsent = true)
    (h2 : b.type.isStringOrAbsent = true) (h3 : b.body.isStringOrAbsent = true) :
    ∃ e, mergedEntry cur b now = some e := by
  obtain ⟨t1, e1⟩ := callTrim_nullish_isSome b.title cur.title h1
  obtain ⟨t2, e2⟩ := callTrim_nullish_isSome b.type cur.type h2
  obtain ⟨t3, e3⟩ := callTrim_nullish_isSome b.body cur.body h3
  simp [mergedEntry, e1, e2, e3, hb, trimTags_strings]

/-- C10: when a create request, or an update request for a present id, gives tags as an
array of strings, the tags of the stored entry are the given tags, each trimmed, with the
ones that are empty after trimming removed, in the given order and with duplicates kept;
such a request is answered with the stored entry whenever title, type and body are strings
or absent; and in every collection reachable through the API every tag is non-empty and has
no white space at either end. -/
theorem C10_tags_trimmed_nonempty :
    (∀ (lore : List Entry) (b : EntryBody) (now : Nat) (ss : List String) (e : Entry)
      (lore2 : List Entry), b.tags = .arr (ss.map JVal.str) →
      createEntry lore b now = (.json 201 e, lore2) →
      e.tags = (ss.map trim).filter (fun t => t != "") ∧ lore2 = lore ++ [e]) ∧
    (∀ (lore : List Entry) (b : EntryBody) (now : Nat) (ss : List String),
      b.tags = .arr (ss.map JVal.str) → b.title.isStringOrAbsent = true →
      b.type.isStringOrAbsent = true → b.body.isStringOrAbsent = true →
      ∃ e, createEntry lore b now = (.json 201 e, lore ++ [e]) ∧
        e.tags = (ss.map trim).filter (fun t => t != "")) ∧
    (∀ (pre : List Entry) (cur : Entry) (post : List Entry) (id : String) (b : EntryBody)
      (now : Nat) (ss : List String) (e : Entry) (lore2 : List Entry),
      (∀ x ∈ pre, x.id ≠ id) → cur.id = id → b.tags = .arr (ss.map JVal.str) →
      updateEntry (pre ++ cur :: post) id b now = (.json 200 e, lore2) →
      e.tags = (ss.map trim).filter (fun t => t != "") ∧ lore2 = pre ++ e :: post) ∧
    (∀ (pre : List Entry) (cur : Entry) (post : List Entry) (id : String) (b : EntryBody)
      (now : Nat) (ss : List String),
      (∀ x ∈ pre, x.id ≠ id) → cur.id = id → b.tags = .arr (ss.map JVal.str) →
      b.title.isStringOrAbsent = true → b.type.isStringOrAbsent = true →
      b.body.isStringOrAbsent = true →
      ∃ e, updateEntry (pre ++ cur :: post) id b now = (.json 200 e, pre ++ e :: post) ∧
        e.tags = (ss.map trim).filter (fun t => t != "")) ∧
    (∀ lore : List Entry, Reachable lore →
      ∀ e ∈ lore, ∀ t ∈ e.tags, t ≠ "" ∧ NoOuterWhiteSpace t) := by
  refine ⟨?_, ?_, ?_, ?_, ?_⟩
  · intro lore b now ss e lore2 hb h
    rcases createEntry_cases lore b now with hc | ⟨e0, hne, hc⟩
    · rw [hc] at h
      simp at h
    · rw [hc] at h
      simp only [Prod.mk.injEq, Response.json.injEq, true_and] at h
      obtain ⟨rfl, rfl⟩ := h
      exact ⟨newEntry_tags ss hb hne, rfl⟩
  · intro lore b now ss hb h1 h2 h3
    obtain ⟨e, he⟩ := newEntry_isSome b now ss hb h1 h2 h3
    refine ⟨e, ?_, newEntry_tags ss hb he⟩
    simp [createEntry, he]
  · intro pre cur post id b now ss e lore2 hpre hcur hb h
    rw [updateEntry_first pre cur post id b now hpre hcur] at h
    cases hm : mergedEntry cur b now with
    | none => rw [hm] at h; simp at h
    | some e0 =>
      rw [hm] at h
      simp only [Prod.mk.injEq, Response.json.injEq, true_and] at h
      obtain ⟨rfl, rfl⟩ := h
      exact ⟨mergedEntry_tags ss hb hm, rfl⟩
  · intro pre cur post id b now ss hpre hcur hb h1 h2 h3
    obtain ⟨e, he⟩ := mergedEntry_isSome cur b now ss hb h1 h2 h3
    refine ⟨e, ?_, mergedEntry_tags ss hb he⟩
    rw [updateEntry_first pre cur post id b now hpre hcur, he]
  · intro lore hR e he
    exact (reachable_wellFormed hR e he).2.2.2.1

theorem C10_tags_trimmed_nonempty_witness :
    ∃ e, createEntry [] ⟨.str "a", .undefined, .arr ([" x ", "  ", "y", "y"].map JVal.str),
        .str "text"⟩ 7 = (.json 201 e, [] ++ [e]) ∧
      e.tags = ([" x ", "  ", "y", "y"].map trim).filter (fun t => t != "") :=
  C10_tags_trimmed_nonempty.2.1 [] ⟨.str "a", .undefined,
    .arr ([" x ", "  ", "y", "y"].map JVal.str), .str "text"⟩ 7 [" x ", "  ", "y", "y"]
    rfl rfl rfl rfl

/-! ## The shape of `path.extname` -/

theorem sliceChars_step (p : List Char) (k : Nat) (c : Char) (e : Nat)
    (h : p.drop k = c :: p.drop (k + 1)) (he : k + 1 ≤ e) :
    sliceChars p k e = c :: sliceChars p (k + 1) e := by
  unfold sliceChars
  rw [h]
  have : e - k = (e - (k + 1)) + 1 := by omega
  rw [this, List.take_succ_cons]

theorem sliceChars_self (p : List Char) (k : Nat) : sliceChars p k k = [] := by
  simp [sliceChars]

theorem drop_reverse_append (rest : List Char) (c : Char) (suffix : List Char) :
    (rest.reverse ++ c :: suffix).drop rest.length =
      c :: (rest.reverse ++ c :: suffix).drop (rest.length + 1) := by
  have h1 : (rest.reverse ++ c :: suffix).drop rest.length = c :: suffix := by
    rw [List.drop_append_eq_append_drop]
    simp
  have h2 : (rest.reverse ++ c :: suffix).drop (rest.length + 1) = suffix := by
    rw [List.drop_append_eq_append_drop]
    simp
  rw [h1, h2]

theorem extnameLoop_final : ∀ (rest suffix : List Char) (st : ExtState),
    ExtInv (rest.reverse ++ suffix) rest.length st →
    ∀ d e, (extnameLoop rest st).startDot = some d → (extnameLoop rest st).endIdx = some e →
      ∃ r, sliceChars (rest.reverse ++ suffix) d e = '.' :: r ∧ '.' ∉ r := by
  intro rest
  induction rest with
  | nil =>
    intro suffix st hinv d e hd he
    simp only [extnameLoop] at hd he
    obtain ⟨e0, he0, r, hr⟩ := hinv.1 d hd
    rw [he] at he0
    simp only [Option.some.injEq] at he0
    subst he0
    exact ⟨r, hr⟩
  | cons c rest ih =>
    intro suffix st hinv
    have hp : (c :: rest).reverse ++ suffix = rest.reverse ++ c :: suffix := by simp
    rw [hp] at hinv ⊢
    have hdrop := drop_reverse_append rest c suffix
    obtain ⟨hA, hB, hC⟩ := hinv
    simp only [List.length_cons] at hB
    by_cases hslash : c = '/'
    · by_cases hms : st.matchedSlash = true
      · have hend : st.endIdx = none := by
          by_contra hne
          rw [hC hne] at hms
          exact Bool.noConfusion hms
        have hsd : st.startDot = none := by
          cases hs : st.startDot with
          | none => rfl
          | some d =>
            obtain ⟨e, he, _⟩ := hA d hs
            rw [hend] at he
            exact Option.noConfusion he
        have hstep : extnameLoop (c :: rest) st = extnameLoop rest st := by
          simp [extnameLoop, hslash, hms]
        rw [hstep]
        apply ih (c :: suffix) st
        refine ⟨hA, ?_, hC⟩
        intro _ e he
        rw [hend] at he
        exact Option.noConfusion he
      · have hstep : extnameLoop (c :: rest) st = { st with startPart := rest.length + 1 } := by
          simp [extnameLoop, hslash, hms]
        rw [hstep]
        intro d e hd he
        obtain ⟨e0, he0, r, hr⟩ := hA d hd
        simp only [] at he
        rw [he] at he0
        simp only [Option.some.injEq] at he0
        subst he0
        exact ⟨r, hr⟩
    · by_cases hdot : c = '.'
      · cases hend : st.endIdx with
        | none =>
          have hsd : st.startDot = none := by
            cases hs : st.startDot with
            | none => rfl
            | some d =>
              obtain ⟨e, he, _⟩ := hA d hs
              rw [hend] at he
              exact Option.noConfusion he
          have hstep : extnameLoop (c :: rest) st = extnameLoop rest
              { st with matchedSlash := false, endIdx := some (rest.length + 1),
                        startDot := some rest.length } := by
            simp [extnameLoop, hslash, hdot, hend, hsd]
          rw [hstep]
          apply ih (c :: suffix)
          refine ⟨?_, ?_, ?_⟩
          · intro d hd
            simp only [Option.some.injEq] at hd
            subst hd
            refine ⟨rest.length + 1, rfl, [], ?_, by simp⟩
            rw [sliceChars_step _ _ c _ hdrop (Nat.le_refl _), sliceChars_self, hdot]
          · intro h
            simp at h
          · intro _
            rfl
        | some e =>
          cases hs : st.startDot with
          | none =>
            have hstep : extnameLoop (c :: rest) st = extnameLoop rest
                { st with startDot := some rest.length } := by
              simp [extnameLoop, hslash, hdot, hend, hs]
            rw [hstep]
            apply ih (c :: suffix)
            obtain ⟨hle, hno⟩ := hB hs e hend
            refine ⟨?_, ?_, hC⟩
            · intro d hd
              simp only [Option.some.injEq] at hd
              subst hd
              refine ⟨e, hend, sliceChars (rest.reverse ++ c :: suffix) (rest.length + 1) e,
                ?_, hno⟩
              rw [sliceChars_step _ _ c _ hdrop hle, hdot]
            · intro h
              simp at h
          | some d =>
            have hkeep : ∀ st2 : ExtState, st2.startDot = st.startDot →
                st2.endIdx = st.endIdx → st2.matchedSlash = st.matchedSlash →
                ExtInv (rest.reverse ++ c :: suffix) rest.length st2 := by
              intro st2 h1 h2 h3
              refine ⟨?_, ?_, ?_⟩
              · intro d2 hd2
                rw [h1] at hd2
                rw [h2]
                exact hA d2 hd2
              · intro h
                rw [h1, hs] at h
                exact Option.noConfusion h
              · intro h
                rw [h2] at h
                rw [h3]
                exact hC h
            by_cases hpre : st.preDotState = 1
            · have hstep : extnameLoop (c :: rest) st = extnameLoop rest st := by
                simp [extnameLoop, hslash, hdot, hend, hs, hpre]
              rw [hstep]
              exact ih (c :: suffix) st (hkeep st rfl rfl rfl)
            · have hstep : extnameLoop (c :: rest) st = extnameLoop rest
                  { st with preDotState := 1 } := by
                simp [extnameLoop, hslash, hdot, hend, hs, hpre]
              rw [hstep]
              exact ih (c :: suffix) _ (hkeep _ rfl rfl rfl)
      · cases hend : st.endIdx with
        | none =>
          have hsd : st.startDot = none := by
            cases hs : st.startDot with
            | none => rfl
            | some d =>
              obtain ⟨e, he, _⟩ := hA d hs
              rw [hend] at he
              exact Option.noConfusion he
          have hstep : extnameLoop (c :: rest) st = extnameLoop rest
              { st with matchedSlash := false, endIdx := some (rest.length + 1) } := by
            simp [extnameLoop, hslash, hdot, hend, hsd]
          rw [hstep]
          apply ih (c :: suffix)
          refine ⟨?_, ?_, ?_⟩
          · intro d hd
            simp only [] at hd
            rw [hsd] at hd
            exact Option.noConfusion hd
          · intro _ e he
            simp only [Option.some.injEq] at he
            subst he
            refine ⟨Nat.le_succ _, ?_⟩
            rw [sliceChars_step _ _ c _ hdrop (Nat.le_refl _), sliceChars_self]
            simpa using Ne.symm hdot
          · intro _
            rfl
        | some e =>
          cases hs : st.startDot with
          | none =>
            have hstep : extnameLoop (c :: rest) st = extnameLoop rest st := by
              simp [extnameLoop, hslash, hdot, hend, hs]
            rw [hstep]
            apply ih (c :: suffix)
            refine ⟨hA, ?_, hC⟩
            intro _ e2 he2
            obtain ⟨hle, hno⟩ := hB hs e2 he2
            refine ⟨by omega, ?_⟩
            rw [sliceChars_step _ _ c _ hdrop hle]
            intro hmem
            rcases List.mem_cons.1 hmem with h | h
            · exact hdot h.symm
            · exact hno h
          | some d =>
            have hstep : extnameLoop (c :: rest) st = extnameLoop rest
                { st with preDotState := -1 } := by
              simp [extnameLoop, hslash, hdot, hend, hs]
            rw [hstep]
            apply ih (c :: suffix)
            refine ⟨?_, ?_, ?_⟩
            · intro d2 hd2
              exact hA d2 hd2
            · intro h
              simp only [] at h
              rw [hs] at h
              exact Option.noConfusion h
            · intro h
              exact hC h

theorem extname_shape (path : String) : ExtShape (extname path).data := by
  have hfin := extnameLoop_final path.data.reverse []
    { startDot := none, startPart := 0, endIdx := none, matchedSlash := true, preDotState := 0 }
    ⟨by intro d hd; exact Option.noConfusion hd, by intro _ e he; exact Option.noConfusion he,
      by intro h; exact absurd rfl h⟩
  simp only [List.reverse_reverse, List.append_nil] at hfin
  unfold extname
  simp only []
  split
  · rename_i d e hd he
    split
    · exact Or.inl rfl
    · obtain ⟨r, hr, hno⟩ := hfin d e hd he
      exact Or.inr ⟨r, hr, hno⟩
  · exact Or.inl rfl

/-! ## C9: stored upload file names -/

theorem takeWhile_append_stop {α : Type} (p : α → Bool) (x : List α) (c : α) (r : List α)
    (hx : ∀ a ∈ x, p a = true) (hc : p c = false) : (x ++ c :: r).takeWhile p = x := by
  rw [List.takeWhile_append_of_pos hx, List.takeWhile_cons_of_neg (by simp [hc])]
  simp

theorem takeWhile_append_shape (x e : List Char) (hx : '.' ∉ x) (he : ExtShape e) :
    (x ++ e).takeWhile (fun c => c != '.') = x := by
  have hall : ∀ a ∈ x, (fun c : Char => c != '.') a = true := by
    intro a ha
    have : a ≠ '.' := fun h => hx (h ▸ ha)
    simpa using this
  rcases he with rfl | ⟨r, rfl, _⟩
  · rw [List.append_nil, List.takeWhile_eq_self_iff]
    exact hall
  · exact takeWhile_append_stop _ x '.' r hall (by simp)

theorem split_at_dot {x1 x2 e1 e2 : List Char} (h : x1 ++ e1 = x2 ++ e2)
    (h1 : '.' ∉ x1) (h2 : '.' ∉ x2) (s1 : ExtShape e1) (s2 : ExtShape e2) : x1 = x2 := by
  have := congrArg (List.takeWhile (fun c => c != '.')) h
  rwa [takeWhile_append_shape x1 e1 h1 s1, takeWhile_append_shape x2 e2 h2 s2] at this

theorem split_at_underscore {b1 b2 t1 t2 : List Char} (h : b1 ++ '_' :: t1 = b2 ++ '_' :: t2)
    (h1 : '_' ∉ t1) (h2 : '_' ∉ t2) : t1 = t2 := by
  have hr := congrArg List.reverse h
  simp only [List.reverse_append, List.reverse_cons, List.append_assoc, List.singleton_append]
    at hr
  have hall : ∀ t : List Char, '_' ∉ t → ∀ a ∈ t.reverse, (fun c : Char => c != '_') a = true := by
    intro t ht a ha
    have : a ≠ '_' := fun h => ht (h ▸ List.mem_reverse.1 ha)
    simpa using this
  have := congrArg (List.takeWhile (fun c => c != '_')) hr
  rw [takeWhile_append_stop _ _ '_' _ (hall t1 h1) (by simp),
    takeWhile_append_stop _ _ '_' _ (hall t2 h2) (by simp)] at this
  exact List.reverse_injective this

theorem sanitizeBase_safe (s : String) : ∀ c ∈ (sanitizeBase s).data, isSafeChar c = true := by
  intro c hc
  simp only [sanitizeBase, List.mem_filter] at hc
  exact hc.2

theorem isSafeChar_ascii (c : Char) (h : isSafeChar c = true) :
    c.isAlpha = true ∨ c.isDigit = true ∨ c = '_' ∨ c = '-' := by
  simp only [isSafeChar, Bool.or_eq_true, Bool.and_eq_true, decide_eq_true_eq, beq_iff_eq] at h
  rcases h with (((h | h) | h) | h) | h
  · left
    simp only [Char.isAlpha, Char.isLower, Bool.or_eq_true, Bool.and_eq_true, decide_eq_true_eq]
    right
    exact ⟨h.1, h.2⟩
  · left
    simp only [Char.isAlpha, Char.isUpper, Bool.or_eq_true, Bool.and_eq_true, decide_eq_true_eq]
    left
    exact ⟨h.1, h.2⟩
  · right; left
    simp only [Char.isDigit, Bool.and_eq_true, decide_eq_true_eq]
    exact ⟨h.1, h.2⟩
  · right; right; left; exact h
  · right; right; right; exact h

theorem storageFilename_data (basename : String → String → String) (o : String) (t : Nat) :
    (storageFilename basename o t).data =
      ((sanitizeBase (basename o (extname o))).data ++ '_' :: (numberToString t).data) ++
        (extname o).data := by
  simp [storageFilename, String.data_append]

theorem stem_no_dot (base : String) (t : Nat)
    (hb : ∀ c ∈ base.data, isSafeChar c = true) : '.' ∉ base.data ++ '_' :: (numberToString t).data := by
  intro h
  rcases List.mem_append.1 h with h | h
  · exact absurd (hb _ h) (by decide)
  · rcases List.mem_cons.1 h with h | h
    · exact absurd h (by decide)
    · exact absurd (numberToString_isDigit t _ h) (by decide)

/-- C9: the name under which an upload is stored is the sanitised base name, an underscore,
the decimal numeral of the timestamp and the extension; the sanitised base name has only
ASCII letters, digits, underscores and hyphens; the extension is empty or starts with its
only dot; hence two uploads with different timestamps get different names, whatever their
original names (and whatever `path.basename` returns). -/
theorem C9_upload_filename (basename : String → String → String) (o1 o2 : String)
    (t1 t2 : Nat) :
    storageFilename basename o1 t1 =
      sanitizeBase (basename o1 (extname o1)) ++ "_" ++ numberToString t1 ++ extname o1 ∧
    (∀ c ∈ (sanitizeBase (basename o1 (extname o1))).data,
      c.isAlpha = true ∨ c.isDigit = true ∨ c = '_' ∨ c = '-') ∧
    ((∀ c ∈ (numberToString t1).data, c.isDigit = true) ∧
      decimalValue (numberToString t1).data = t1) ∧
    ((extname o1).data = [] ∨ ∃ r, (extname o1).data = '.' :: r ∧ '.' ∉ r) ∧
    (t1 ≠ t2 → storageFilename basename o1 t1 ≠ storageFilename basename o2 t2) := by
  refine ⟨rfl, ?_, ⟨numberToString_isDigit t1, ?_⟩, extname_shape o1, ?_⟩
  · intro c hc
    exact isSafeChar_ascii c (sanitizeBase_safe _ c hc)
  · rw [numberToString_data]
    exact decimalValue_toDigitsCore _ _ (Nat.lt_succ_self t1)
  · intro hne heq
    apply hne
    have hd := congrArg String.data heq
    rw [storageFilename_data, storageFilename_data] at hd
    have hstem := split_at_dot hd (stem_no_dot _ t1 (sanitizeBase_safe _))
      (stem_no_dot _ t2 (sanitizeBase_safe _)) (extname_shape o1) (extname_shape o2)
    have hdig : ∀ t : Nat, '_' ∉ (numberToString t).data :=
      fun t h => absurd (numberToString_isDigit t _ h) (by decide)
    have := split_at_underscore hstem (hdig t1) (hdig t2)
    exact numberToString_injective (String.ext this)

theorem C9_upload_filename_witness :
    storageFilename (fun p _ => p) "my map_1.v2.png" 1700000000000 ≠
      storageFilename (fun p _ => p) "my map.png" 1700000000001 :=
  (C9_upload_filename (fun p _ => p) "my map_1.v2.png" "my map.png"
    1700000000000 1700000000001).2.2.2.2 (by decide)

/-! ## C8: client-side filtering -/

theorem startsWith_iff (h q : List Char) : startsWith h q = true ↔ ∃ post, h = q ++ post := by
  induction q generalizing h with
  | nil => simp [startsWith]
  | cons b q ih =>
    cases h with
    | nil => simp [startsWith]
    | cons a h =>
      simp only [startsWith, Bool.and_eq_true, beq_iff_eq, ih, List.cons_append,
        List.cons.injEq]
      constructor
      · rintro ⟨rfl, post, rfl⟩
        exact ⟨post, rfl, rfl⟩
      · rintro ⟨post, rfl, rfl⟩
        exact ⟨rfl, post, rfl⟩

theorem includesChars_iff (h q : List Char) :
    includesChars h q = true ↔ ∃ pre post, h = pre ++ q ++ post := by
  induction h with
  | nil =>
    simp only [includesChars, startsWith_iff]
    constructor
    · rintro ⟨post, hp⟩
      exact ⟨[], post, by simpa using hp⟩
    · rintro ⟨pre, post, hp⟩
      have h1 : pre ++ q ++ post = [] := hp.symm
      simp only [List.append_eq_nil] at h1
      obtain ⟨⟨_, rfl⟩, rfl⟩ := h1
      exact ⟨[], rfl⟩
  | cons a h ih =>
    simp only [includesChars, Bool.or_eq_true, startsWith_iff, ih]
    constructor
    · rintro (⟨post, hp⟩ | ⟨pre, post, hp⟩)
      · exact ⟨[], post, by simpa using hp⟩
      · exact ⟨a :: pre, post, by simp [hp]⟩
    · rintro ⟨pre, post, hp⟩
      cases pre with
      | nil => exact Or.inl ⟨post, by simpa using hp⟩
      | cons x pre =>
        simp only [List.cons_append, List.cons.injEq] at hp
        exact Or.inr ⟨pre, post, hp.2⟩

theorem includes_iff (h q : String) : includes h q = true ↔ IsSubstring q h :=
  includesChars_iff h.data q.data

theorem searchText_eq (e : Entry) :
    searchText e = e.title ++ " " ++ e.type ++ " " ++ e.body ++ " " ++ join " " e.tags ++ " " ++
      join " " ((e.media.getD []).map (fun (m : Media) => m.filename)) := by
  unfold searchText
  cases e.media <;> simp [join, String.append_assoc]

theorem haystack_eq_spec (toLowerCase : String → String) (e : Entry) :
    haystack toLowerCase e = specSearchText toLowerCase e := by
  unfold haystack specSearchText
  rw [searchText_eq]

theorem trim_decompose (s : String) :
    ∃ lead trail : List Char, s.data = lead ++ (trim s).data ++ trail := by
  obtain ⟨r, hr⟩ := List.rdropWhile_prefix isWhiteSpace (l := s.data.dropWhile isWhiteSpace)
  refine ⟨s.data.takeWhile isWhiteSpace, r, ?_⟩
  simp only [trim]
  rw [List.append_assoc, hr, List.takeWhile_append_dropWhile]

theorem filter_rule_iff (toLowerCase : String → String)
    (hempty : ∀ s, toLowerCase s = "" ↔ s = "") (e : Entry) (query filterValue : String) :
    (if toLowerCase (trim filterValue) != "" &&
          toLowerCase e.type != toLowerCase (trim filterValue) then false
      else if toLowerCase (trim query) == "" then true
      else includes (haystack toLowerCase e) (toLowerCase (trim query))) = true ↔
    SpecPassesTypeFilter toLowerCase e (trim filterValue) ∧
      SpecPassesSearch toLowerCase e (trim query) := by
  unfold SpecPassesTypeFilter SpecPassesSearch
  rw [← haystack_eq_spec, ← includes_iff]
  by_cases hf : trim filterValue = ""
  · by_cases hq : trim query = ""
    · simp [hf, hq, hempty]
    · have hq2 : toLowerCase (trim query) ≠ "" := fun h => hq ((hempty _).1 h)
      simp [hf, hq, hq2, hempty]
  · have hf2 : toLowerCase (trim filterValue) ≠ "" := fun h => hf ((hempty _).1 h)
    by_cases ht : toLowerCase e.type = toLowerCase (trim filterValue)
    · by_cases hq : trim query = ""
      · simp [hf, hf2, ht, hq, hempty]
      · have hq2 : toLowerCase (trim query) ≠ "" := fun h => hq ((hempty _).1 h)
        simp [hf, hf2, ht, hq, hq2]
    · simp [hf, hf2, ht]

theorem body_match_passes (toLowerCase : String → String)
    (hascii : ∀ s, IsAscii s → toLowerCase s = asciiLower s) (e : Entry) (query : String)
    (he : IsAscii (searchText e)) (hqa : IsAscii query)
    (h : BodyContainsIgnoringCase toLowerCase e query) :
    SpecPassesSearch toLowerCase e (trim query) := by
  right
  obtain ⟨pre, mid, post, hbody, hmid⟩ := h
  obtain ⟨lead, trail, hq⟩ := trim_decompose query
  rw [searchText_eq] at he
  have hmidA : IsAscii ⟨mid⟩ := by
    intro c hc
    apply he c
    simp only [String.data_append, hbody, List.mem_append]
    exact Or.inl (Or.inl (Or.inl (Or.inl (Or.inr (Or.inl (Or.inr hc))))))
  have htrimA : IsAscii (trim query) := by
    intro c hc
    apply hqa c
    rw [hq]
    simp only [List.mem_append]
    exact Or.inl (Or.inr hc)
  rw [hascii _ hmidA, hascii _ hqa] at hmid
  have hm : mid.map Char.toLower = query.data.map Char.toLower := by
    have := congrArg String.data hmid
    simpa [asciiLower] using this
  rw [hq] at hm
  refine ⟨(e.title ++ " " ++ e.type ++ " ").data.map Char.toLower ++ pre.map Char.toLower ++
      lead.map Char.toLower,
    trail.map Char.toLower ++ post.map Char.toLower ++
      (" " ++ join " " e.tags ++ " " ++
        join " " ((e.media.getD []).map (fun (m : Media) => m.filename))).data.map Char.toLower,
    ?_⟩
  unfold specSearchText
  rw [hascii _ he, hascii _ htrimA]
  simp only [asciiLower, String.data_append, List.map_append, hbody, hm, List.append_assoc]

/-! ### The example lower-casing meets the hypotheses -/

theorem lowerChar_ascii : ∀ n, n < 128 →
    lowerChar (Char.ofNat n) = Char.toLower (Char.ofNat n) := by
  decide

theorem lowerWithSigma_ascii : ∀ (l before : List Char), (∀ c ∈ l, c.toNat < 128) →
    lowerWithSigma before l = l.map Char.toLower := by
  intro l
  induction l with
  | nil => intro _ _; rfl
  | cons c rest ih =>
    intro before h
    have hc : c.toNat < 128 := h c (List.mem_cons_self _ _)
    have hne : c.toNat ≠ 0x3A3 := by omega
    have hl : lowerChar c = Char.toLower c := by
      have := lowerChar_ascii c.toNat hc
      rwa [Char.ofNat_toNat] at this
    simp only [lowerWithSigma, if_neg hne, hl, List.map_cons]
    rw [ih (c :: before) (fun x hx => h x (List.mem_cons_of_mem _ hx))]

theorem lowerAsciiGreek_ascii (s : String) (h : IsAscii s) :
    lowerAsciiGreek s = asciiLower s := by
  unfold lowerAsciiGreek asciiLower
  rw [lowerWithSigma_ascii s.data [] h]

theorem lowerAsciiGreek_empty (s : String) : lowerAsciiGreek s = "" ↔ s = "" := by
  constructor
  · intro h
    have hd := congrArg String.data h
    apply String.ext
    cases hs : s.data with
    | nil => rfl
    | cons c rest =>
      simp only [lowerAsciiGreek, hs, lowerWithSigma] at hd
      exact absurd hd (List.cons_ne_nil _ _)
  · rintro rfl
    rfl

/-! ### The claim -/

/-- C8, as stated, fails in two ways.  With the search box holding " x" (a leading blank)
and no type filter, an entry titled "x" is returned although its lower-cased search text
does not contain the lower-cased query " x".  And an entry whose body "ΚΟΣΜΟΣ" contains the
query "ΚΟΣ" letter for letter is not returned: lower-casing turns the sigma that ends the
query into a final sigma, and the same sigma inside the body into a medial one. -/
theorem C8_counterexample :
    (getFilteredEntries lowerAsciiGreek [⟨"id-7", "x", "", [], "", some [], 7⟩] " x" "" =
        [⟨"id-7", "x", "", [], "", some [], 7⟩] ∧
      ¬ (SpecPassesTypeFilter lowerAsciiGreek ⟨"id-7", "x", "", [], "", some [], 7⟩ "" ∧
          SpecPassesSearch lowerAsciiGreek ⟨"id-7", "x", "", [], "", some [], 7⟩ " x")) ∧
    (BodyContainsIgnoringCase lowerAsciiGreek ⟨"id-8", "x", "", [], "ΚΟΣΜΟΣ", some [], 8⟩
        "ΚΟΣ" ∧
      lowerAsciiGreek "ΚΟΣ" = "κος" ∧
      haystack lowerAsciiGreek ⟨"id-8", "x", "", [], "ΚΟΣΜΟΣ", some [], 8⟩ = "x  κοσμος  " ∧
      getFilteredEntries lowerAsciiGreek [⟨"id-8", "x", "", [], "ΚΟΣΜΟΣ", some [], 8⟩]
        "ΚΟΣ" "" = []) := by
  refine ⟨⟨by decide, ?_⟩, ⟨[], "ΚΟΣ".toList, "ΜΟΣ".toList, by decide, rfl⟩, by decide, by decide,
    by decide⟩
  rintro ⟨_, h | h⟩
  · exact absurd h (by decide)
  · rw [← includes_iff] at h
    exact absurd h (by decide)

/-- C8 (amended): whatever `toLowerCase` is, provided it maps only the empty string to the
empty string: for every list of entries, search text and type-filter value,
getFilteredEntries returns exactly the entries, in collection order, that satisfy both rules
for the search text and the filter value with the white space at both ends removed: (1) the
trimmed filter is empty or equals the entry's type ignoring case, and (2) the trimmed query
is empty or its lower-cased form is a substring of the lower-cased, space-joined title, type,
body, tags and attached filenames.  Provided further that `toLowerCase` lower-cases ASCII
text letter by letter: an entry whose search text is ASCII and whose body contains an ASCII
query as typed, in any letter case, satisfies rule (2), so it is returned whenever it
satisfies rule (1). -/
theorem C8_filter_trimmed (toLowerCase : String → String)
    (hempty : ∀ s, toLowerCase s = "" ↔ s = "")
    (hascii : ∀ s, IsAscii s → toLowerCase s = asciiLower s)
    (entries : List Entry) (query filterValue : String) :
    (∃ p : Entry → Bool,
      (∀ e, p e = true ↔
        SpecPassesTypeFilter toLowerCase e (trim filterValue) ∧
          SpecPassesSearch toLowerCase e (trim query)) ∧
      getFilteredEntries toLowerCase entries query filterValue = entries.filter p) ∧
    (∀ e, IsAscii (searchText e) → IsAscii query →
      BodyContainsIgnoringCase toLowerCase e query →
      SpecPassesSearch toLowerCase e (trim query) ∧
      (e ∈ entries → SpecPassesTypeFilter toLowerCase e (trim filterValue) →
        e ∈ getFilteredEntries toLowerCase entries query filterValue)) := by
  have hmem : ∀ e, e ∈ getFilteredEntries toLowerCase entries query filterValue ↔
      e ∈ entries ∧
        SpecPassesTypeFilter toLowerCase e (trim filterValue) ∧
          SpecPassesSearch toLowerCase e (trim query) := by
    intro e
    unfold getFilteredEntries
    simp only [List.mem_filter]
    rw [filter_rule_iff toLowerCase hempty]
  constructor
  · exact ⟨_, fun e => filter_rule_iff toLowerCase hempty e query filterValue, rfl⟩
  · intro e hea hqa hb
    have hs := body_match_passes toLowerCase hascii e query hea hqa hb
    exact ⟨hs, fun he ht => (hmem e).2 ⟨he, ht, hs⟩⟩

theorem C8_filter_trimmed_witness :
    SpecPassesSearch lowerAsciiGreek
        ⟨"id-7", "Smaug", "NPC", ["old"], "A Dragon of the north", some [], 7⟩ (trim " drag") ∧
      ((⟨"id-7", "Smaug", "NPC", ["old"], "A Dragon of the north", some [], 7⟩ : Entry) ∈
          [(⟨"id-7", "Smaug", "NPC", ["old"], "A Dragon of the north", some [], 7⟩ : Entry)] →
        SpecPassesTypeFilter lowerAsciiGreek
          ⟨"id-7", "Smaug", "NPC", ["old"], "A Dragon of the north", some [], 7⟩ (trim "npc") →
        (⟨"id-7", "Smaug", "NPC", ["old"], "A Dragon of the north", some [], 7⟩ : Entry) ∈
          getFilteredEntries lowerAsciiGreek
            [⟨"id-7", "Smaug", "NPC", ["old"], "A Dragon of the north", some [], 7⟩]
            " drag" "npc") :=
  (C8_filter_trimmed lowerAsciiGreek lowerAsciiGreek_empty lowerAsciiGreek_ascii
    [⟨"id-7", "Smaug", "NPC", ["old"], "A Dragon of the north", some [], 7⟩]
    " drag" "npc").2 _ (by unfold IsAscii; decide) (by unfold IsAscii; decide)
    ⟨"A".toList, " Drag".toList, "on of the north".toList, by decide, by decide⟩

end Lore
